import Mathlib

/-!
# HeapPage: a slotted page of variable-length records

A shallow embedding of `src/spacemgr/heappage.cpp`.

The page keeps a slot directory (`slots`) and a byte area (`data`).  Records are
written downwards from the end of `data`; `fillPtr` is the offset of the lowest
record byte.  A slot whose `length` is `0` marks a deleted record.

Conventions of the embedding

* C++ `short` variables hold an `Int` that every assignment reduces with
  `wrap16`; a `size_t` byte count is reduced with `toSizeT`.
* Memory reached through a pointer is a total function from an (integer)
  index to its content: `slots i` is what the expression `slots[i]` reads, for
  every `i`, inside the directory or not, and `data a` is the byte `data[a]`.
* A reference parameter (`RecordID&`, `int&`, `char*&`) is passed in and
  returned, so a path that does not assign it hands back the caller's value.
* The header `heappage.h` is not among the sources.  The constants it declares
  are parameters (`C` for `HEAPPAGE_DATA_SIZE`) or are modelled from the spec
  (`sizeofSlot`, `INVALID_PAGE`, the comparison of a `RecordID` with a number).
  The placement of `slots` and `data` inside the object is declared there as
  well; the embedding keeps them as two memories, so a write through one is not
  seen through the other.
-/

namespace HeapPage

/-! ## Machine integers and raw memory -/

/-- Value kept by a 16-bit signed variable (`short`) after assigning `x`. -/
def wrap16 (x : Int) : Int := (x + 32768) % 65536 - 32768

/-- Value of a `size_t` (64-bit unsigned) after converting `x`. -/
def toSizeT (x : Int) : Int := x % 18446744073709551616

/-- One byte of record payload (`char`). -/
abbrev Byte := Nat

/-- Memory seen through a `char*`: the byte at every index. -/
abbrev Mem := Int → Byte

/-- Effect of `memcpy(dst + d, src + s, n)` on the memory `dst`. -/
def memcpy (dst : Mem) (d : Int) (src : Mem) (s : Int) (n : Int) : Mem :=
  fun a => if d ≤ a ∧ a < d + n then src (s + (a - d)) else dst a

/-- Effect of `memmove(m + d, m + s, n)`: the source bytes are read before any
byte is written, so overlapping ranges are copied correctly. -/
def memmove (m : Mem) (d : Int) (s : Int) (n : Int) : Mem :=
  memcpy m d m s n

/-- The `n` bytes of `m` starting at index `start`. -/
def readBytes (m : Mem) (start : Int) (n : Nat) : List Byte :=
  (List.range n).map (fun (i : Nat) => m (start + (i : Int)))

/-- A caller buffer holding the byte sequence `b` (and zeroes elsewhere). -/
def bufOf (b : List Byte) : Mem :=
  fun a => if 0 ≤ a then b.getD a.toNat 0 else 0

/-! ## Data model -/

/-- Return codes of the page operations. -/
inductive Status where
  | OK
  | DONE
  | FAIL
  deriving DecidableEq

/-- A slot directory entry; both fields are `short`. -/
structure Slot where
  offset : Int
  length : Int
  deriving DecidableEq

/-- Record identifier: page number and slot number (`int`). -/
structure RecordID where
  pageNo : Int
  slotNo : Int
  deriving DecidableEq

/-- Modelled from the spec: `sizeof(Slot)`, declared in the absent header
`heappage.h`; a slot is the pair `{offset, length}` of 16-bit integers. -/
def sizeofSlot : Int := 4

/-- Modelled from the spec: `INVALID_PAGE`, the reserved page identifier that
means "no page", declared in an absent header. -/
def INVALID_PAGE : Int := -1

/-- The members of a `HeapPage` object. -/
structure Page where
  pid : Int
  prevPage : Int
  nextPage : Int
  freeSpace : Int
  numOfSlots : Int
  fillPtr : Int
  slots : Int → Slot
  data : Mem

/-- Assignment `slots[i] = v`. -/
def setSlot (slots : Int → Slot) (i : Int) (v : Slot) : Int → Slot :=
  fun j => if j = i then v else slots j

/-- The loop `for (k = i; k < i + n; ++k) if (pred(slots[k])) return k;`:
the first index at or after `i`, among `n` indices, whose slot satisfies
`pred`. -/
def findSlot (pred : Slot → Bool) (slots : Int → Slot) : Int → Nat → Option Int
  | _, 0 => none
  | i, n + 1 => if pred (slots i) then some i else findSlot pred slots (i + 1) n

/-- The test `!slot.length`. -/
def isFree (s : Slot) : Bool := decide (s.length = 0)

/-- The test `slot.length`. -/
def isUsed (s : Slot) : Bool := decide (s.length ≠ 0)

/-- Number of slots satisfying `pred` among the `n` indices from `i` on. -/
def countSlots (pred : Slot → Bool) (slots : Int → Slot) : Int → Nat → Int
  | _, 0 => 0
  | i, n + 1 => (if pred (slots i) then 1 else 0) + countSlots pred slots (i + 1) n

/-! ## Operations -/

/-- The method `HeapPage::Init`: reset the header; slot and data memory is left as it is. -/
def Init (C : Int) (p : Page) (pageNo : Int) : Page :=
  { p with
    pid := pageNo
    prevPage := INVALID_PAGE
    nextPage := INVALID_PAGE
    freeSpace := wrap16 C
    numOfSlots := 0
    fillPtr := wrap16 C }

/-- The method `HeapPage::SetNextPage`. -/
def SetNextPage (p : Page) (pageNo : Int) : Page := { p with nextPage := pageNo }

/-- The method `HeapPage::SetPrevPage`. -/
def SetPrevPage (p : Page) (pageNo : Int) : Page := { p with prevPage := pageNo }

/-- The method `HeapPage::GetNextPage`. -/
def GetNextPage (p : Page) : Int := p.nextPage

/-- The method `HeapPage::GetPrevPage`. -/
def GetPrevPage (p : Page) : Int := p.prevPage

/-- The method `HeapPage::InsertRecord(recPtr, length, rid)`.  Returns the status, the page
afterwards and the value of `rid` afterwards. -/
def InsertRecord (p : Page) (recPtr : Mem) (length : Int) (rid : RecordID) :
    Status × Page × RecordID :=
  let oldSpace := p.freeSpace
  let freeSpace1 := wrap16 (p.freeSpace - length)
  let toFill := findSlot isFree p.slots 0 p.numOfSlots.toNat
  let freeSpace2 :=
    match toFill with
    | none => wrap16 (freeSpace1 - sizeofSlot)
    | some _ => freeSpace1
  if freeSpace2 < 0 then
    (Status.DONE, { p with freeSpace := oldSpace }, rid)
  else
    let slotNo := match toFill with
      | none => p.numOfSlots
      | some i => i
    let numOfSlots := match toFill with
      | none => wrap16 (p.numOfSlots + 1)
      | some _ => p.numOfSlots
    let fillPtr := wrap16 (p.fillPtr - length)
    (Status.OK,
     { p with
       freeSpace := freeSpace2
       numOfSlots := numOfSlots
       fillPtr := fillPtr
       slots := setSlot p.slots slotNo { offset := fillPtr, length := wrap16 length }
       data := memcpy p.data fillPtr recPtr 0 (toSizeT length) },
     { pageNo := p.pid, slotNo := slotNo })

/-- The loop of `DeleteRecord` that moves the offsets of the slots below the
deleted record: every directory entry with `offset < recOffset` gets
`offset += recLength`. -/
def shiftOffsets (slots : Int → Slot) (numOfSlots recOffset recLength : Int) : Int → Slot :=
  fun j =>
    if 0 ≤ j ∧ j < numOfSlots ∧ (slots j).offset < recOffset then
      { slots j with offset := wrap16 ((slots j).offset + recLength) }
    else slots j

/-- The method `HeapPage::DeleteRecord(rid)` with `COMPACT_AFTER_DELETES` defined, as in
the source. -/
def DeleteRecord (p : Page) (rid : RecordID) : Status × Page :=
  let recLength := (p.slots rid.slotNo).length
  if rid.slotNo > p.numOfSlots ∨ rid.slotNo < 0 ∨ recLength = 0 then
    (Status.FAIL, p)
  else
    let recOffset := (p.slots rid.slotNo).offset
    let data :=
      if recOffset ≠ p.fillPtr then
        memmove p.data (p.fillPtr + recLength) p.fillPtr (toSizeT (recOffset - p.fillPtr))
      else p.data
    let slots :=
      if recOffset ≠ p.fillPtr then
        shiftOffsets p.slots p.numOfSlots recOffset recLength
      else p.slots
    (Status.OK,
     { p with
       fillPtr := wrap16 (p.fillPtr + recLength)
       freeSpace := wrap16 (p.freeSpace + recLength)
       slots := setSlot slots rid.slotNo { slots rid.slotNo with length := 0 }
       data := data })

/-- The method `HeapPage::FirstRecord(rid)`. -/
def FirstRecord (p : Page) (rid : RecordID) : Status × RecordID :=
  match findSlot isUsed p.slots 0 p.numOfSlots.toNat with
  | some slt => (Status.OK, { pageNo := p.pid, slotNo := slt })
  | none => (Status.DONE, rid)

/-- Modelled from the spec: the comparison `curRid > n` of a `RecordID` with a
number, whose operator is declared in an absent header; the spec reads it as a
comparison of the slot index. -/
def RecordID.gtInt (r : RecordID) (n : Int) : Bool := decide (r.slotNo > n)

/-- Modelled from the spec: the comparison `curRid < n` of a `RecordID` with a
number, whose operator is declared in an absent header; the spec reads it as a
comparison of the slot index. -/
def RecordID.ltInt (r : RecordID) (n : Int) : Bool := decide (r.slotNo < n)

/-- The method `HeapPage::NextRecord(curRid, nextRid)`. -/
def NextRecord (p : Page) (curRid : RecordID) (nextRid : RecordID) : Status × RecordID :=
  if curRid.gtInt p.numOfSlots = true ∨ curRid.ltInt 0 = true
      ∨ (p.slots curRid.slotNo).length = 0 then
    (Status.FAIL, nextRid)
  else
    match findSlot isUsed p.slots (curRid.slotNo + 1)
        (p.numOfSlots - (curRid.slotNo + 1)).toNat with
    | some slt => (Status.OK, { pageNo := p.pid, slotNo := slt })
    | none => (Status.DONE, nextRid)

/-- The method `HeapPage::GetRecord(rid, recPtr, length)`.  Returns the status, the
caller's buffer afterwards and the value of `length` afterwards. -/
def GetRecord (p : Page) (rid : RecordID) (recPtr : Mem) (length : Int) :
    Status × Mem × Int :=
  if rid.slotNo ≥ p.numOfSlots ∨ (p.slots rid.slotNo).length = 0 then
    (Status.FAIL, recPtr, length)
  else
    let len := (p.slots rid.slotNo).length
    (Status.OK, memcpy recPtr 0 p.data (p.slots rid.slotNo).offset (toSizeT len), len)

/-- The method `HeapPage::ReturnRecord(rid, recPtr, length)`.  The pointer handed back is
`data + offset`; it is represented by the index `offset` into `data`. -/
def ReturnRecord (p : Page) (rid : RecordID) (recPtr : Int) (length : Int) :
    Status × Int × Int :=
  if rid.slotNo < 0 ∨ rid.slotNo ≥ p.numOfSlots ∨ (p.slots rid.slotNo).length = 0 then
    (Status.FAIL, recPtr, length)
  else
    (Status.OK, (p.slots rid.slotNo).offset, (p.slots rid.slotNo).length)

/-- The method `HeapPage::AvailableSpace`.  The operands are a `short` and `sizeof(Slot)`,
so the difference always fits the `int` that is returned. -/
def AvailableSpace (p : Page) : Int :=
  let slotFree := (findSlot isFree p.slots 0 p.numOfSlots.toNat).isSome
  if slotFree then p.freeSpace else p.freeSpace - sizeofSlot

/-- The method `HeapPage::IsEmpty`. -/
def IsEmpty (p : Page) : Bool :=
  if p.numOfSlots = 0 then true
  else
    match findSlot isFree p.slots 0 p.numOfSlots.toNat with
    | some _ => false
    | none => true

/-- The `while` loop of `CompactSlotDir`: `r` is the read index, `w` the write
index, `stop` is `numOfSlots`; the fuel bounds the remaining iterations. -/
def compactLoop (stop : Int) : Nat → (Int → Slot) → Int → Int → (Int → Slot) × Int × Int
  | 0, slots, r, w => (slots, r, w)
  | fuel + 1, slots, r, w =>
    if r < stop then
      if (slots r).length ≠ 0 then
        compactLoop stop fuel (setSlot slots w (slots r)) (r + 1) (w + 1)
      else
        compactLoop stop fuel slots (r + 1) w
    else (slots, r, w)

/-- The method `HeapPage::CompactSlotDir`. -/
def CompactSlotDir (p : Page) : Page :=
  let res := compactLoop p.numOfSlots p.numOfSlots.toNat p.slots 0 0
  let slotsSaved := wrap16 (res.2.1 - res.2.2)
  { p with
    slots := res.1
    numOfSlots := wrap16 (p.numOfSlots - slotsSaved)
    freeSpace := wrap16 (p.freeSpace + slotsSaved * sizeofSlot) }

/-- The method `HeapPage::GetNumOfRecords`. -/
def GetNumOfRecords (p : Page) : Int :=
  p.numOfSlots - countSlots isFree p.slots 0 p.numOfSlots.toNat

/-! ## Page invariants -/

/-- A slot index of the directory that holds a record. -/
def Live (p : Page) (i : Int) : Prop :=
  0 ≤ i ∧ i < p.numOfSlots ∧ 0 < (p.slots i).length

/-- The invariants of a page of data capacity `C`. -/
structure PageInv (C : Int) (p : Page) : Prop where
  cap : C ≤ 32767
  numNonneg : 0 ≤ p.numOfSlots
  fillLo : 0 ≤ p.fillPtr
  fillHi : p.fillPtr ≤ C
  freeNonneg : 0 ≤ p.freeSpace
  account : p.freeSpace = C - p.numOfSlots * sizeofSlot - (C - p.fillPtr)
  lenNonneg : ∀ i, 0 ≤ i → i < p.numOfSlots → 0 ≤ (p.slots i).length
  inData : ∀ i, Live p i → p.fillPtr ≤ (p.slots i).offset ∧
    (p.slots i).offset + (p.slots i).length ≤ C
  disjoint : ∀ i j, Live p i → Live p j → i ≠ j →
    (p.slots i).offset + (p.slots i).length ≤ (p.slots j).offset ∨
    (p.slots j).offset + (p.slots j).length ≤ (p.slots i).offset

/-- What a successful `InsertRecord` of `length` bytes does to the page `p`,
`r` being the triple it returns. -/
structure InsertSpec (p : Page) (recPtr : Mem) (length : Int)
    (r : Status × Page × RecordID) : Prop where
  status : r.1 = Status.OK
  pageNo : r.2.2.pageNo = p.pid
  pid : r.2.1.pid = p.pid
  fillPtr : r.2.1.fillPtr = p.fillPtr - length
  slots : r.2.1.slots =
    setSlot p.slots r.2.2.slotNo { offset := p.fillPtr - length, length := length }
  data : r.2.1.data = memcpy p.data (p.fillPtr - length) recPtr 0 length
  slot :
    (findSlot isFree p.slots 0 p.numOfSlots.toNat = none ∧ r.2.2.slotNo = p.numOfSlots ∧
        r.2.1.numOfSlots = p.numOfSlots + 1 ∧
        r.2.1.freeSpace = p.freeSpace - length - sizeofSlot) ∨
    (findSlot isFree p.slots 0 p.numOfSlots.toNat = some r.2.2.slotNo ∧
        r.2.1.numOfSlots = p.numOfSlots ∧ r.2.1.freeSpace = p.freeSpace - length)

/-- What `DeleteRecord` does to the page `p` when `rid` names a live record,
`r` being the pair it returns. -/
structure DeleteSpec (p : Page) (rid : RecordID) (r : Status × Page) : Prop where
  status : r.1 = Status.OK
  pid : r.2.pid = p.pid
  fillPtr : r.2.fillPtr = p.fillPtr + (p.slots rid.slotNo).length
  freeSpace : r.2.freeSpace = p.freeSpace + (p.slots rid.slotNo).length
  numOfSlots : r.2.numOfSlots = p.numOfSlots
  slotDel : (r.2.slots rid.slotNo).length = 0
  slotLen : ∀ i, i ≠ rid.slotNo → (r.2.slots i).length = (p.slots i).length
  slotOff : ∀ i, Live p i → i ≠ rid.slotNo →
    (r.2.slots i).offset =
      if (p.slots i).offset < (p.slots rid.slotNo).offset then
        (p.slots i).offset + (p.slots rid.slotNo).length
      else (p.slots i).offset
  data : ∀ a, r.2.data a =
    if p.fillPtr + (p.slots rid.slotNo).length ≤ a ∧
        a < (p.slots rid.slotNo).offset + (p.slots rid.slotNo).length then
      p.data (a - (p.slots rid.slotNo).length)
    else p.data a

/-- A page whose memory is all zero, before `Init`. -/
def blank : Page :=
  { pid := 0, prevPage := 0, nextPage := 0, freeSpace := 0, numOfSlots := 0, fillPtr := 0
    slots := fun _ => { offset := 0, length := 0 }
    data := fun _ => 0 }

/-! ## The cursor loop of a caller -/

/-- The loop `while (status == OK) status = NextRecord(rid, rid);` run on the
outcome `cur` of the previous call.  Returns the slot numbers of the record ids
that were handed out and the status that ended the loop, or `none` when the
fuel is used up before the loop ends. -/
def scanFrom (p : Page) : Nat → Status × RecordID → Option (List Int × Status)
  | 0, _ => none
  | fuel + 1, cur =>
    if cur.1 = Status.OK then
      (scanFrom p fuel (NextRecord p cur.2 cur.2)).map
        (fun r => (cur.2.slotNo :: r.1, r.2))
    else some ([], cur.1)

/-- The whole traversal: `FirstRecord`, then `NextRecord` until it stops. -/
def scanAll (p : Page) (fuel : Nat) (rid : RecordID) : Option (List Int × Status) :=
  scanFrom p fuel (FirstRecord p rid)

/-- The indices, among the `n` indices from `i` on, of the slots with a nonzero
length, in increasing order. -/
def usedFrom (slots : Int → Slot) : Int → Nat → List Int
  | _, 0 => []
  | i, n + 1 =>
    if isUsed (slots i) then i :: usedFrom slots (i + 1) n else usedFrom slots (i + 1) n

/-! ## Directory contents and the predicates of the later claims -/

/-- The entries `slots[i]`, `slots[i + 1]`, ... , `n` of them. -/
def slotList (slots : Int → Slot) : Int → Nat → List Slot
  | _, 0 => []
  | i, n + 1 => slots i :: slotList slots (i + 1) n

/-- The slot directory of a page: its first `numOfSlots` entries. -/
def directory (p : Page) : List Slot := slotList p.slots 0 p.numOfSlots.toNat

/-- The number of tombstones in the directory, as `GetNumOfRecords` counts
them. -/
def numTombstones (p : Page) : Int := countSlots isFree p.slots 0 p.numOfSlots.toNat

/-- The indices of the directory slots with a nonzero length, in increasing
order. -/
def liveSlots (p : Page) : List Int := usedFrom p.slots 0 p.numOfSlots.toNat

/-- Live records tile the data region of a page of capacity `C`: every live
slot lies in `[fillPtr, C)`, no two live slots overlap, and every byte of
`[fillPtr, C)` belongs to a live slot. -/
def Tiling (C : Int) (p : Page) : Prop :=
  (∀ i, Live p i → p.fillPtr ≤ (p.slots i).offset ∧
      (p.slots i).offset + (p.slots i).length ≤ C) ∧
  (∀ i j, Live p i → Live p j → i ≠ j →
      (p.slots i).offset + (p.slots i).length ≤ (p.slots j).offset ∨
      (p.slots j).offset + (p.slots j).length ≤ (p.slots i).offset) ∧
  (∀ a, p.fillPtr ≤ a → a < C →
      ∃ i, Live p i ∧ (p.slots i).offset ≤ a ∧ a < (p.slots i).offset + (p.slots i).length)

/-- The space accounting predicate of a page of capacity `C`. -/
def Accounting (C : Int) (p : Page) : Prop :=
  0 ≤ p.fillPtr ∧ p.fillPtr ≤ C ∧ 0 ≤ p.freeSpace ∧
  p.freeSpace = C - p.numOfSlots * sizeofSlot - (C - p.fillPtr)

/-! ## Sample pages -/

/-- A freshly initialised page of capacity 1024 with page number 7. -/
def page0 : Page := Init 1024 blank 7

/-- The sample page after inserting the 5 bytes of "alpha". -/
def page1 : Page := (InsertRecord page0 (bufOf [97, 108, 112, 104, 97]) 5 ⟨0, 0⟩).2.1

/-- The sample page after inserting "alpha" and the 4 bytes of "beta". -/
def page2 : Page := (InsertRecord page1 (bufOf [98, 101, 116, 97]) 4 ⟨0, 0⟩).2.1

/-- The sample page after a third insert, the 5 bytes of "gamma". -/
def page3 : Page := (InsertRecord page2 (bufOf [103, 97, 109, 109, 97]) 5 ⟨0, 0⟩).2.1

/-- The sample page with records in slots 0 and 2 and slot 1 deleted. -/
def page3d : Page := (DeleteRecord page3 ⟨7, 1⟩).2

/-- The sample page holding "alpha", seen with a nonzero word in the memory
that lies just before the slot directory (what `slots[-1]` reads). -/
def pageStray : Page :=
  { page1 with slots := setSlot page1.slots (-1) { offset := 1019, length := 5 } }

/-- A caller buffer filled with the byte `z`. -/
def zBuf : Mem := fun _ => 122

/-- The sample page after "alpha" and "beta" were inserted, slot 0 was deleted
and the directory was compacted: one slot, holding "beta". -/
def pageC : Page := CompactSlotDir (DeleteRecord page2 ⟨7, 0⟩).2

/-- The page that `InsertRecord` with `length = 40000` returns with `OK` on the
freshly initialised sample page: its only slot has the length -25536. -/
def pageNeg : Page := (InsertRecord page0 zBuf 40000 ⟨0, 0⟩).2.1

/-- The sample page with three records inserted and slot 0 deleted: a tombstone
in slot 0, records in slots 1 and 2. -/
def pageT : Page := (DeleteRecord page3 ⟨7, 0⟩).2

end HeapPage

namespace HeapPage

/-! ## Machine integers -/

theorem wrap16_of_range {x : Int} (h1 : -32768 ≤ x) (h2 : x ≤ 32767) : wrap16 x = x := by
  unfold wrap16
  omega

theorem toSizeT_of_range {x : Int} (h1 : 0 ≤ x) (h2 : x ≤ 32767) : toSizeT x = x := by
  unfold toSizeT
  omega

/-! ## The directory scan -/

theorem findSlot_eq_none (pred : Slot → Bool) (slots : Int → Slot) :
    ∀ (n : Nat) (i : Int), findSlot pred slots i n = none ↔
      ∀ k, i ≤ k → k < i + n → pred (slots k) = false := by
  intro n
  induction n with
  | zero =>
    intro i
    simp only [findSlot, true_iff]
    intro k h1 h2
    exfalso
    omega
  | succ n ih =>
    intro i
    by_cases hp : pred (slots i) = true
    · simp only [findSlot, hp, if_true]
      constructor
      · intro h
        cases h
      · intro h
        have := h i (le_refl i) (by omega)
        rw [hp] at this
        cases this
    · have hp2 : pred (slots i) = false := by simpa using hp
      simp only [findSlot, hp2, Bool.false_eq_true, if_false]
      rw [ih (i + 1)]
      constructor
      · intro h k h1 h2
        by_cases hk : k = i
        · rw [hk]; exact hp2
        · exact h k (by omega) (by omega)
      · intro h k h1 h2
        exact h k (by omega) (by omega)

theorem findSlot_eq_some (pred : Slot → Bool) (slots : Int → Slot) :
    ∀ (n : Nat) (i j : Int), findSlot pred slots i n = some j ↔
      (i ≤ j ∧ j < i + n ∧ pred (slots j) = true ∧
        ∀ k, i ≤ k → k < j → pred (slots k) = false) := by
  intro n
  induction n with
  | zero =>
    intro i j
    simp only [findSlot]
    constructor
    · intro h
      cases h
    · rintro ⟨h1, h2, _, _⟩
      exfalso
      omega
  | succ n ih =>
    intro i j
    by_cases hp : pred (slots i) = true
    · simp only [findSlot, hp, if_true, Option.some.injEq]
      constructor
      · intro h
        subst h
        exact ⟨le_refl _, by omega, hp, fun k h1 h2 => by exfalso; omega⟩
      · rintro ⟨h1, _, _, h4⟩
        by_contra hne
        have := h4 i (le_refl i) (by omega)
        rw [hp] at this
        cases this
    · have hp2 : pred (slots i) = false := by simpa using hp
      simp only [findSlot, hp2, Bool.false_eq_true, if_false]
      rw [ih (i + 1) j]
      constructor
      · rintro ⟨h1, h2, h3, h4⟩
        refine ⟨by omega, by omega, h3, ?_⟩
        intro k hk1 hk2
        by_cases hk : k = i
        · rw [hk]; exact hp2
        · exact h4 k (by omega) hk2
      · rintro ⟨h1, h2, h3, h4⟩
        have hne : j ≠ i := by
          intro h
          rw [h, hp2] at h3
          cases h3
        exact ⟨by omega, by omega, h3, fun k hk1 hk2 => h4 k (by omega) hk2⟩

/-! ## InsertRecord when the record fits -/

theorem PageInv.freeSpace_le {C : Int} {p : Page} (h : PageInv C p) :
    p.freeSpace ≤ 32767 ∧ p.numOfSlots * 4 ≤ p.fillPtr := by
  have h1 := h.account
  have h2 := h.freeNonneg
  have h3 := h.numNonneg
  have h4 := h.fillHi
  have h5 := h.cap
  simp only [sizeofSlot] at h1
  omega

theorem InsertRecord_fits {C : Int} {p : Page} (hinv : PageInv C p) (recPtr : Mem)
    (length : Int) (rid : RecordID) (h1 : 1 ≤ length) (h2 : length ≤ AvailableSpace p) :
    InsertSpec p recPtr length (InsertRecord p recPtr length rid) := by
  obtain ⟨hf, hn4⟩ := hinv.freeSpace_le
  have hn := hinv.numNonneg
  have hfl := hinv.fillLo
  have hfh := hinv.fillHi
  have hc := hinv.cap
  have hacc := hinv.account
  have hfn := hinv.freeNonneg
  simp only [sizeofSlot] at hacc
  cases hfind : findSlot isFree p.slots 0 p.numOfSlots.toNat with
  | none =>
    simp only [AvailableSpace, hfind, Option.isSome_none, Bool.false_eq_true, if_false,
      sizeofSlot] at h2
    have hw1 : wrap16 (p.freeSpace - length) = p.freeSpace - length :=
      wrap16_of_range (by omega) (by omega)
    have hw2 : wrap16 (p.freeSpace - length - 4) = p.freeSpace - length - 4 :=
      wrap16_of_range (by omega) (by omega)
    have hw3 : wrap16 (p.numOfSlots + 1) = p.numOfSlots + 1 :=
      wrap16_of_range (by omega) (by omega)
    have hw4 : wrap16 (p.fillPtr - length) = p.fillPtr - length :=
      wrap16_of_range (by omega) (by omega)
    have hw5 : wrap16 length = length := wrap16_of_range (by omega) (by omega)
    have hw6 : toSizeT length = length := toSizeT_of_range (by omega) (by omega)
    have hge : ¬ (p.freeSpace - length - 4 < 0) := by omega
    simp only [InsertRecord, hfind, hw1, sizeofSlot, hw2, hge, if_false, hw3, hw4, hw5, hw6]
    exact ⟨rfl, rfl, rfl, rfl, rfl, rfl, Or.inl ⟨hfind, rfl, rfl, rfl⟩⟩
  | some k =>
    simp only [AvailableSpace, hfind, Option.isSome_some, if_true] at h2
    have hw1 : wrap16 (p.freeSpace - length) = p.freeSpace - length :=
      wrap16_of_range (by omega) (by omega)
    have hw4 : wrap16 (p.fillPtr - length) = p.fillPtr - length :=
      wrap16_of_range (by omega) (by omega)
    have hw5 : wrap16 length = length := wrap16_of_range (by omega) (by omega)
    have hw6 : toSizeT length = length := toSizeT_of_range (by omega) (by omega)
    have hge : ¬ (p.freeSpace - length < 0) := by omega
    simp only [InsertRecord, hfind, hw1, hge, if_false, hw4, hw5, hw6]
    exact ⟨rfl, rfl, rfl, rfl, rfl, rfl, Or.inr ⟨hfind, rfl, rfl⟩⟩

theorem findFree_none {slots : Int → Slot} {n : Int}
    (h : findSlot isFree slots 0 n.toNat = none) :
    ∀ i, 0 ≤ i → i < n → (slots i).length ≠ 0 := by
  intro i h0 h1
  have hn : (n.toNat : Int) = n := Int.toNat_of_nonneg (by omega)
  have := (findSlot_eq_none isFree slots n.toNat 0).mp h i h0 (by omega)
  simpa [isFree] using this

theorem findFree_some {slots : Int → Slot} {n k : Int}
    (h : findSlot isFree slots 0 n.toNat = some k) :
    0 ≤ k ∧ k < n ∧ (slots k).length = 0 ∧ ∀ i, 0 ≤ i → i < k → (slots i).length ≠ 0 := by
  obtain ⟨h0, h1, h2, h3⟩ := (findSlot_eq_some isFree slots n.toNat 0 k).mp h
  have hn : (n.toNat : Int) = n := by
    apply Int.toNat_of_nonneg
    by_contra hneg
    have : n.toNat = 0 := Int.toNat_eq_zero.mpr (by omega)
    rw [this] at h1
    simp only [Nat.cast_zero] at h1
    omega
  refine ⟨h0, by omega, by simpa [isFree] using h2, ?_⟩
  intro i hi0 hik
  simpa [isFree] using h3 i hi0 hik

/-- The slot chosen by a successful insert was not live before, lies in the new
directory, and the new directory has no other index that the old one lacked. -/
theorem InsertSpec.chosen {C : Int} {p : Page} {recPtr : Mem} {length : Int}
    {r : Status × Page × RecordID} (hinv : PageInv C p)
    (hs : InsertSpec p recPtr length r) :
    0 ≤ r.2.2.slotNo ∧ r.2.2.slotNo < r.2.1.numOfSlots ∧ ¬ Live p r.2.2.slotNo ∧
      p.numOfSlots ≤ r.2.1.numOfSlots ∧
      ∀ i, i < r.2.1.numOfSlots → i ≠ r.2.2.slotNo → i < p.numOfSlots := by
  have hn := hinv.numNonneg
  rcases hs.slot with ⟨_, hk, hn2, _⟩ | ⟨hfind, hn2, _⟩
  · refine ⟨by omega, by omega, ?_, by omega, ?_⟩
    · rintro ⟨_, h, _⟩
      omega
    · intro i h1 h2
      omega
  · obtain ⟨h0, h1, h2, _⟩ := findFree_some hfind
    refine ⟨h0, by omega, ?_, by omega, ?_⟩
    · rintro ⟨_, _, h⟩
      omega
    · intro i hi _
      omega

theorem InsertSpec.live_old {C : Int} {p : Page} {recPtr : Mem} {length : Int}
    {r : Status × Page × RecordID} (hinv : PageInv C p)
    (hs : InsertSpec p recPtr length r) {i : Int} (hl : Live r.2.1 i)
    (hne : i ≠ r.2.2.slotNo) : Live p i ∧ r.2.1.slots i = p.slots i := by
  obtain ⟨_, _, _, _, hall⟩ := hs.chosen hinv
  have hsl : r.2.1.slots i = p.slots i := by
    rw [hs.slots]
    simp only [setSlot, hne, if_false]
  obtain ⟨h0, h1, h2⟩ := hl
  rw [hsl] at h2
  exact ⟨⟨h0, hall i h1 hne, h2⟩, hsl⟩

theorem InsertSpec.slot_new {p : Page} {recPtr : Mem} {length : Int}
    {r : Status × Page × RecordID} (hs : InsertSpec p recPtr length r) :
    r.2.1.slots r.2.2.slotNo = { offset := p.fillPtr - length, length := length } := by
  rw [hs.slots]
  simp only [setSlot, if_true]

theorem InsertRecord_inv {C : Int} {p : Page} (hinv : PageInv C p) (recPtr : Mem)
    (length : Int) (rid : RecordID) (h1 : 1 ≤ length) (h2 : length ≤ AvailableSpace p) :
    PageInv C (InsertRecord p recPtr length rid).2.1 := by
  have hs := InsertRecord_fits hinv recPtr length rid h1 h2
  have hch := hs.chosen hinv
  have hnew := hs.slot_new
  have hold := fun i => @InsertSpec.live_old C p recPtr length _ hinv hs i
  generalize InsertRecord p recPtr length rid = r at hs hch hnew hold ⊢
  obtain ⟨h0k, hkn, hnl, hnn, hall⟩ := hch
  have hn := hinv.numNonneg
  have hacc := hinv.account
  have hfn := hinv.freeNonneg
  have hfh := hinv.fillHi
  simp only [sizeofSlot] at hacc
  have hfree : 0 ≤ r.2.1.freeSpace ∧
      r.2.1.freeSpace = C - r.2.1.numOfSlots * 4 - (C - r.2.1.fillPtr) := by
    rw [hs.fillPtr]
    rcases hs.slot with ⟨hfind, _, hn2, hf2⟩ | ⟨hfind, hn2, hf2⟩
    · simp only [AvailableSpace, hfind, Option.isSome_none, Bool.false_eq_true, if_false,
        sizeofSlot] at h2
      simp only [sizeofSlot] at hf2
      omega
    · simp only [AvailableSpace, hfind, Option.isSome_some, if_true] at h2
      omega
  have hfp := hs.fillPtr
  refine ⟨hinv.cap, by omega, by omega, by omega, hfree.1, ?_, ?_, ?_, ?_⟩
  · simp only [sizeofSlot]
    exact hfree.2
  · intro i hi0 hin
    by_cases hik : i = r.2.2.slotNo
    · rw [hik, hnew]
      simp only
      omega
    · rw [hs.slots]
      simp only [setSlot, hik, if_false]
      exact hinv.lenNonneg i hi0 (hall i hin hik)
  · intro i hl
    by_cases hik : i = r.2.2.slotNo
    · rw [hik, hnew]
      simp only
      omega
    · obtain ⟨hlo, heq⟩ := hold i hl hik
      rw [heq]
      have := hinv.inData i hlo
      omega
  · intro i j hi hj hij
    by_cases hik : i = r.2.2.slotNo
    · have hjk : j ≠ r.2.2.slotNo := fun h => hij (hik.trans h.symm)
      obtain ⟨hlo, heq⟩ := hold j hj hjk
      rw [heq, hik, hnew]
      simp only
      have := hinv.inData j hlo
      omega
    · obtain ⟨hlo, heq⟩ := hold i hi hik
      by_cases hjk : j = r.2.2.slotNo
      · rw [heq, hjk, hnew]
        simp only
        have := hinv.inData i hlo
        omega
      · obtain ⟨hlo2, heq2⟩ := hold j hj hjk
        rw [heq, heq2]
        exact hinv.disjoint i j hlo hlo2 hij

theorem Init_inv {C : Int} (h0 : 0 ≤ C) (h1 : C ≤ 32767) (p : Page) (pageNo : Int) :
    PageInv C (Init C p pageNo) := by
  have hw : wrap16 C = C := wrap16_of_range (by omega) h1
  refine ⟨h1, ?_, ?_, ?_, ?_, ?_, ?_, ?_, ?_⟩ <;> simp only [Init, hw, sizeofSlot, Live]
  · exact le_refl _
  · exact h0
  · exact le_refl _
  · exact h0
  · omega
  · intro i a b
    omega
  · rintro i ⟨a, b, _⟩
    omega
  · rintro i j ⟨a, b, _⟩
    omega

theorem page0_inv : PageInv 1024 page0 :=
  Init_inv (by decide) (by decide) blank 7

theorem page1_inv : PageInv 1024 page1 :=
  InsertRecord_inv page0_inv _ 5 _ (by decide) (by decide)

theorem page2_inv : PageInv 1024 page2 :=
  InsertRecord_inv page1_inv _ 4 _ (by decide) (by decide)

/-! ## AvailableSpace -/

theorem AvailableSpace_of_free (p : Page)
    (h : ∃ i, 0 ≤ i ∧ i < p.numOfSlots ∧ (p.slots i).length = 0) :
    AvailableSpace p = p.freeSpace := by
  obtain ⟨i, h0, h1, h2⟩ := h
  cases hfind : findSlot isFree p.slots 0 p.numOfSlots.toNat with
  | none => exact absurd h2 (findFree_none hfind i h0 h1)
  | some k => simp only [AvailableSpace, hfind, Option.isSome_some, if_true]

theorem AvailableSpace_of_full (p : Page)
    (h : ¬ ∃ i, 0 ≤ i ∧ i < p.numOfSlots ∧ (p.slots i).length = 0) :
    AvailableSpace p = p.freeSpace - sizeofSlot := by
  cases hfind : findSlot isFree p.slots 0 p.numOfSlots.toNat with
  | none => simp only [AvailableSpace, hfind, Option.isSome_none, Bool.false_eq_true, if_false]
  | some k =>
    obtain ⟨h0, h1, h2, _⟩ := findFree_some hfind
    exact absurd ⟨k, h0, h1, h2⟩ h

theorem readBytes_eq (m : Mem) (start : Int) (b : List Byte)
    (h : ∀ i : Nat, i < b.length → m (start + (i : Int)) = b.getD i 0) :
    readBytes m start b.length = b := by
  apply List.ext_getElem
  · simp [readBytes]
  · intro i h1 h2
    simp only [readBytes, List.getElem_map, List.getElem_range]
    rw [h i h2, List.getD_eq_getElem _ _ h2]

/-! ## DeleteRecord on a live record -/

theorem DeleteRecord_live {C : Int} {p : Page} (hinv : PageInv C p) (rid : RecordID)
    (hr : Live p rid.slotNo) : DeleteSpec p rid (DeleteRecord p rid) := by
  obtain ⟨hf, hn4⟩ := hinv.freeSpace_le
  obtain ⟨h0, h1, h2⟩ := hr
  obtain ⟨hlo, hhi⟩ := hinv.inData rid.slotNo ⟨h0, h1, h2⟩
  have hn := hinv.numNonneg
  have hfl := hinv.fillLo
  have hc := hinv.cap
  have hacc := hinv.account
  have hfn := hinv.freeNonneg
  simp only [sizeofSlot] at hacc
  have hcond : ¬ (rid.slotNo > p.numOfSlots ∨ rid.slotNo < 0 ∨
      (p.slots rid.slotNo).length = 0) := by omega
  have hw1 : wrap16 (p.fillPtr + (p.slots rid.slotNo).length) =
      p.fillPtr + (p.slots rid.slotNo).length := wrap16_of_range (by omega) (by omega)
  have hw2 : wrap16 (p.freeSpace + (p.slots rid.slotNo).length) =
      p.freeSpace + (p.slots rid.slotNo).length := wrap16_of_range (by omega) (by omega)
  have hw3 : toSizeT ((p.slots rid.slotNo).offset - p.fillPtr) =
      (p.slots rid.slotNo).offset - p.fillPtr := toSizeT_of_range (by omega) (by omega)
  by_cases heq : (p.slots rid.slotNo).offset = p.fillPtr
  · simp only [DeleteRecord, hcond, if_false, heq, ne_eq, not_true_eq_false, hw1, hw2]
    refine ⟨rfl, rfl, rfl, rfl, rfl, ?_, ?_, ?_, ?_⟩
    · simp only [setSlot, if_true]
    · intro i hi
      simp only [setSlot, hi, if_false]
    · intro i hl hi
      have := (hinv.inData i hl).1
      have hnlt : ¬ ((p.slots i).offset < p.fillPtr) := by omega
      simp only [setSlot, hi, if_false, heq, hnlt]
    · intro a
      have hna : ¬ (p.fillPtr + (p.slots rid.slotNo).length ≤ a ∧
          a < p.fillPtr + (p.slots rid.slotNo).length) := by omega
      simp only [heq, hna, if_false]
  · simp only [DeleteRecord, hcond, if_false, heq, ne_eq, not_false_eq_true, if_true, hw1,
      hw2, hw3]
    refine ⟨rfl, rfl, rfl, rfl, rfl, ?_, ?_, ?_, ?_⟩
    · simp only [setSlot, if_true]
    · intro i hi
      simp only [setSlot, hi, if_false, shiftOffsets]
      split_ifs <;> rfl
    · intro i hl hi
      obtain ⟨hi0, hi1, hi2⟩ := hl
      obtain ⟨hilo, hihi⟩ := hinv.inData i ⟨hi0, hi1, hi2⟩
      simp only [setSlot, hi, if_false, shiftOffsets, hi0, hi1, true_and]
      by_cases hlt : (p.slots i).offset < (p.slots rid.slotNo).offset
      · simp only [hlt, if_true]
        exact wrap16_of_range (by omega) (by omega)
      · simp only [hlt, if_false]
    · intro a
      simp only [memmove, memcpy]
      by_cases ha : p.fillPtr + (p.slots rid.slotNo).length ≤ a ∧
          a < (p.slots rid.slotNo).offset + (p.slots rid.slotNo).length
      · have ha2 : p.fillPtr + (p.slots rid.slotNo).length ≤ a ∧
            a < p.fillPtr + (p.slots rid.slotNo).length +
              ((p.slots rid.slotNo).offset - p.fillPtr) := by omega
        have ha3 : p.fillPtr + (a - (p.fillPtr + (p.slots rid.slotNo).length)) =
            a - (p.slots rid.slotNo).length := by omega
        simp only [ha, ha2, and_self, if_true, ha3]
      · have ha2 : ¬ (p.fillPtr + (p.slots rid.slotNo).length ≤ a ∧
            a < p.fillPtr + (p.slots rid.slotNo).length +
              ((p.slots rid.slotNo).offset - p.fillPtr)) := by omega
        simp only [ha, ha2, if_false]

/-! ## What the validations of the code accept -/

theorem DeleteRecord_fail (p : Page) (rid : RecordID)
    (h : rid.slotNo < 0 ∨ p.numOfSlots < rid.slotNo ∨ (p.slots rid.slotNo).length = 0) :
    DeleteRecord p rid = (Status.FAIL, p) := by
  have hcond : rid.slotNo > p.numOfSlots ∨ rid.slotNo < 0 ∨
      (p.slots rid.slotNo).length = 0 := by
    rcases h with h | h | h
    · exact Or.inr (Or.inl h)
    · exact Or.inl h
    · exact Or.inr (Or.inr h)
  simp only [DeleteRecord, hcond, if_true]

theorem GetRecord_ReturnRecord_status (p : Page) (rid : RecordID) (out : Mem) (len0 : Int)
    (ptr0 : Int) (h : 0 ≤ rid.slotNo) :
    (GetRecord p rid out len0).1 = (ReturnRecord p rid ptr0 len0).1 ∧
    (GetRecord p rid out len0).2.2 = (ReturnRecord p rid ptr0 len0).2.2 := by
  by_cases hc : rid.slotNo ≥ p.numOfSlots ∨ (p.slots rid.slotNo).length = 0
  · have hc2 : rid.slotNo < 0 ∨ rid.slotNo ≥ p.numOfSlots ∨
        (p.slots rid.slotNo).length = 0 := Or.inr hc
    rw [GetRecord, ReturnRecord, if_pos hc, if_pos hc2]
    exact ⟨rfl, rfl⟩
  · have hc2 : ¬ (rid.slotNo < 0 ∨ rid.slotNo ≥ p.numOfSlots ∨
        (p.slots rid.slotNo).length = 0) := by
      rintro (h1 | h1)
      · omega
      · exact hc h1
    rw [GetRecord, ReturnRecord, if_neg hc, if_neg hc2]
    exact ⟨rfl, rfl⟩

theorem IsEmpty_eq_true_iff (p : Page) :
    IsEmpty p = true ↔ ¬ ∃ i, 0 ≤ i ∧ i < p.numOfSlots ∧ (p.slots i).length = 0 := by
  cases hfind : findSlot isFree p.slots 0 p.numOfSlots.toNat with
  | none =>
    have hnone := findFree_none hfind
    simp only [IsEmpty, hfind, ite_self, true_iff]
    rintro ⟨i, h0, h1, h2⟩
    exact hnone i h0 h1 h2
  | some k =>
    obtain ⟨h0, h1, h2, _⟩ := findFree_some hfind
    have hne : p.numOfSlots ≠ 0 := by omega
    simp only [IsEmpty, hfind, hne, if_false, Bool.false_eq_true, false_iff, not_not]
    exact ⟨k, h0, h1, h2⟩

/-- An insert that fits leaves every live slot and the bytes of its record as
they were, and hands out another slot index. -/
theorem InsertRecord_frame {C : Int} {p : Page} (hinv : PageInv C p) (recPtr : Mem)
    (length : Int) (rid : RecordID) (h1 : 1 ≤ length) (h2 : length ≤ AvailableSpace p)
    (s : Int) (hs : Live p s) :
    (InsertRecord p recPtr length rid).2.2.slotNo ≠ s ∧
    (InsertRecord p recPtr length rid).2.1.slots s = p.slots s ∧
    Live (InsertRecord p recPtr length rid).2.1 s ∧
    ∀ a, (p.slots s).offset ≤ a →
      (InsertRecord p recPtr length rid).2.1.data a = p.data a := by
  have hsp := InsertRecord_fits hinv recPtr length rid h1 h2
  obtain ⟨_, _, hnl, hnn, _⟩ := hsp.chosen hinv
  have hne : s ≠ (InsertRecord p recPtr length rid).2.2.slotNo := by
    intro h
    rw [h] at hs
    exact hnl hs
  have hsl : (InsertRecord p recPtr length rid).2.1.slots s = p.slots s := by
    rw [hsp.slots]
    simp only [setSlot, hne, if_false]
  have hin := (hinv.inData s hs).1
  refine ⟨fun h => hne h.symm, hsl, ⟨hs.1, by have := hs.2.1; omega, by rw [hsl]; exact hs.2.2⟩,
    ?_⟩
  intro a ha
  rw [hsp.data]
  have hout : ¬ (p.fillPtr - length ≤ a ∧ a < p.fillPtr - length + length) := by omega
  simp only [memcpy, hout, if_false]

/-! ## Claims -/

/-- C1 (round trip).  On a page that satisfies the invariants, inserting a byte
sequence `b` with `1 ≤ len b ≤ AvailableSpace()` returns `OK`, and `GetRecord`
on the record id just returned gives `OK`, the length `len b` and the bytes
`b`. -/
theorem insert_get_round_trip (C : Int) (p : Page) (b : List Byte) (rid : RecordID)
    (out : Mem) (len0 : Int) (hinv : PageInv C p) (h1 : 1 ≤ b.length)
    (h2 : (b.length : Int) ≤ AvailableSpace p) :
    (InsertRecord p (bufOf b) b.length rid).1 = Status.OK ∧
    (GetRecord (InsertRecord p (bufOf b) b.length rid).2.1
        (InsertRecord p (bufOf b) b.length rid).2.2 out len0).1 = Status.OK ∧
    (GetRecord (InsertRecord p (bufOf b) b.length rid).2.1
        (InsertRecord p (bufOf b) b.length rid).2.2 out len0).2.2 = b.length ∧
    readBytes (GetRecord (InsertRecord p (bufOf b) b.length rid).2.1
        (InsertRecord p (bufOf b) b.length rid).2.2 out len0).2.1 0 b.length = b := by
  have hlen : (1 : Int) ≤ (b.length : Int) := by exact_mod_cast h1
  have hs := InsertRecord_fits hinv (bufOf b) b.length rid hlen h2
  have hch := hs.chosen hinv
  have hnew := hs.slot_new
  have hdata := hs.data
  have hst := hs.status
  have hsmall : (b.length : Int) ≤ 32767 := by
    have := hinv.freeSpace_le.1
    have h3 : AvailableSpace p ≤ p.freeSpace := by
      unfold AvailableSpace
      simp only [sizeofSlot]
      split_ifs <;> omega
    omega
  generalize InsertRecord p (bufOf b) b.length rid = r at hch hnew hdata hst ⊢
  obtain ⟨_, hkn, _⟩ := hch
  have hcond : ¬ (r.2.2.slotNo ≥ r.2.1.numOfSlots ∨ (b.length : Int) = 0) := by
    omega
  have hw : toSizeT (b.length : Int) = b.length := toSizeT_of_range (by omega) hsmall
  simp only [GetRecord, hcond, if_false, hnew, hw]
  refine ⟨hst, trivial, trivial, ?_⟩
  apply readBytes_eq
  intro i hi
  have hi2 : (i : Int) < b.length := by exact_mod_cast hi
  have hc1 : (0 : Int) ≤ 0 + (i : Int) ∧ 0 + (i : Int) < 0 + (b.length : Int) := by omega
  have hc2 : p.fillPtr - (b.length : Int) ≤ p.fillPtr - (b.length : Int) + (0 + (i : Int) - 0) ∧
      p.fillPtr - (b.length : Int) + (0 + (i : Int) - 0) <
        p.fillPtr - (b.length : Int) + (b.length : Int) := by omega
  have hc3 : (0 : Int) ≤ 0 + (p.fillPtr - (b.length : Int) + (0 + (i : Int) - 0) -
      (p.fillPtr - (b.length : Int))) := by omega
  have hc4 : (0 + (p.fillPtr - (b.length : Int) + (0 + (i : Int) - 0) -
      (p.fillPtr - (b.length : Int)))).toNat = i := by
    have : 0 + (p.fillPtr - (b.length : Int) + (0 + (i : Int) - 0) -
      (p.fillPtr - (b.length : Int))) = (i : Int) := by omega
    rw [this]
    exact Int.toNat_natCast i
  simp only [memcpy, hc1, and_self, if_true, hdata, hc2, bufOf, hc3, hc4]

/-- Witness of C1: the 3 bytes `[97, 98, 99]` inserted into the sample page that
already holds "alpha" and "beta". -/
theorem insert_get_round_trip_witness :
    PageInv 1024 page2 ∧ 1 ≤ [97, 98, 99].length ∧
    (([97, 98, 99] : List Byte).length : Int) ≤ AvailableSpace page2 ∧
    (InsertRecord page2 (bufOf [97, 98, 99]) 3 ⟨0, 0⟩).1 = Status.OK ∧
    readBytes (GetRecord (InsertRecord page2 (bufOf [97, 98, 99]) 3 ⟨0, 0⟩).2.1
        (InsertRecord page2 (bufOf [97, 98, 99]) 3 ⟨0, 0⟩).2.2 (bufOf []) 0).2.1 0 3
      = [97, 98, 99] :=
  have h := insert_get_round_trip 1024 page2 [97, 98, 99] ⟨0, 0⟩ (bufOf []) 0 page2_inv
    (by decide) (by decide)
  ⟨page2_inv, by decide, by decide, h.1, h.2.2.2⟩

/-- C2 (guaranteed lower bound).  On every page `AvailableSpace()` is
`freeSpace` when some directory slot is a tombstone and
`freeSpace - sizeof(Slot)` otherwise; and when the page satisfies the
invariants, every `InsertRecord` whose length is between 1 and
`AvailableSpace()` returns `OK`, so it does not take the insufficient-space
(`DONE`) path. -/
theorem availableSpace_lower_bound (p : Page) :
    ((∃ i, 0 ≤ i ∧ i < p.numOfSlots ∧ (p.slots i).length = 0) →
        AvailableSpace p = p.freeSpace) ∧
    ((¬ ∃ i, 0 ≤ i ∧ i < p.numOfSlots ∧ (p.slots i).length = 0) →
        AvailableSpace p = p.freeSpace - sizeofSlot) ∧
    ∀ (C : Int) (recPtr : Mem) (length : Int) (rid : RecordID),
      PageInv C p → 1 ≤ length → length ≤ AvailableSpace p →
      (InsertRecord p recPtr length rid).1 = Status.OK ∧
      (InsertRecord p recPtr length rid).1 ≠ Status.DONE := by
  refine ⟨AvailableSpace_of_free p, AvailableSpace_of_full p, ?_⟩
  intro C recPtr length rid hinv h1 h2
  have hs := (InsertRecord_fits hinv recPtr length rid h1 h2).status
  refine ⟨hs, ?_⟩
  rw [hs]
  decide

/-- Witness of C2: the sample page holding "alpha" and "beta" has no tombstone,
so `AvailableSpace()` is `freeSpace - sizeof(Slot)` (1003), and a record that
takes all of it is inserted with `OK`; on the sample page with a tombstone in
slot 1 `AvailableSpace()` is `freeSpace`. -/
theorem availableSpace_lower_bound_witness :
    PageInv 1024 page2 ∧
    (¬ ∃ i, 0 ≤ i ∧ i < page2.numOfSlots ∧ (page2.slots i).length = 0) ∧
    AvailableSpace page2 = page2.freeSpace - sizeofSlot ∧ AvailableSpace page2 = 1003 ∧
    (InsertRecord page2 (bufOf []) 1003 ⟨0, 0⟩).1 = Status.OK ∧
    (∃ i, 0 ≤ i ∧ i < page3d.numOfSlots ∧ (page3d.slots i).length = 0) ∧
    AvailableSpace page3d = page3d.freeSpace :=
  have hfull : ¬ ∃ i, 0 ≤ i ∧ i < page2.numOfSlots ∧ (page2.slots i).length = 0 := by
    rintro ⟨i, h0, h1, h2⟩
    have hn : page2.numOfSlots = 2 := by decide
    rw [hn] at h1
    have hcases : i = 0 ∨ i = 1 := by omega
    rcases hcases with h | h <;> subst h <;> revert h2 <;> decide
  have htomb : ∃ i, 0 ≤ i ∧ i < page3d.numOfSlots ∧ (page3d.slots i).length = 0 :=
    ⟨1, by decide, by decide, by decide⟩
  ⟨page2_inv, hfull, (availableSpace_lower_bound page2).2.1 hfull, by decide,
    ((availableSpace_lower_bound page2).2.2 1024 (bufOf []) 1003 ⟨0, 0⟩ page2_inv
      (by decide) (by decide)).1,
    htomb, (availableSpace_lower_bound page3d).1 htomb⟩

/-- C3 (rollback on overflow).  On a page that satisfies the invariants, with
a data capacity `C` that leaves room for one slot below the `short` limit,
`InsertRecord` with a length greater than `AvailableSpace()` and at most `C`
returns `DONE` and leaves the page (header, every slot, every data byte) and
the caller's record id as they were. -/
theorem insert_overflow_rolls_back (C : Int) (p : Page) (recPtr : Mem) (length : Int)
    (rid : RecordID) (hinv : PageInv C p) (hcap : C + sizeofSlot ≤ 32768)
    (h1 : AvailableSpace p < length) (h2 : length ≤ C) :
    InsertRecord p recPtr length rid = (Status.DONE, p, rid) := by
  obtain ⟨hf, _⟩ := hinv.freeSpace_le
  have hfn := hinv.freeNonneg
  simp only [sizeofSlot] at hcap
  cases hfind : findSlot isFree p.slots 0 p.numOfSlots.toNat with
  | none =>
    simp only [AvailableSpace, hfind, Option.isSome_none, Bool.false_eq_true, if_false,
      sizeofSlot] at h1
    have hw1 : wrap16 (p.freeSpace - length) = p.freeSpace - length :=
      wrap16_of_range (by omega) (by omega)
    have hw2 : wrap16 (p.freeSpace - length - 4) = p.freeSpace - length - 4 :=
      wrap16_of_range (by omega) (by omega)
    have hlt : p.freeSpace - length - 4 < 0 := by omega
    simp only [InsertRecord, hfind, hw1, sizeofSlot, hw2, hlt, if_true]
  | some k =>
    simp only [AvailableSpace, hfind, Option.isSome_some, if_true] at h1
    have hw1 : wrap16 (p.freeSpace - length) = p.freeSpace - length :=
      wrap16_of_range (by omega) (by omega)
    have hlt : p.freeSpace - length < 0 := by omega
    simp only [InsertRecord, hfind, hw1, hlt, if_true]

/-- Witness of C3: 1004 bytes do not fit the sample page, whose
`AvailableSpace()` is 1003. -/
theorem insert_overflow_rolls_back_witness :
    PageInv 1024 page2 ∧ AvailableSpace page2 < 1004 ∧
    InsertRecord page2 (bufOf []) 1004 ⟨0, 0⟩ = (Status.DONE, page2, ⟨0, 0⟩) :=
  ⟨page2_inv, by decide,
    insert_overflow_rolls_back 1024 page2 (bufOf []) 1004 ⟨0, 0⟩ page2_inv
      (by decide) (by decide) (by decide)⟩

/-- C4 (delete does not disturb other records).  On a page that satisfies the
invariants, for a live record id `r` and another live slot `sid`, `DeleteRecord r`
returns `OK`, the slot of `sid` is still live at the same index, and `GetRecord`
on `sid` returns `OK` with the same length and the same bytes as before the
delete. -/
theorem delete_keeps_other_records (C : Int) (p : Page) (r sid : RecordID) (out : Mem)
    (len0 : Int) (hinv : PageInv C p) (hr : Live p r.slotNo) (hs : Live p sid.slotNo)
    (hne : sid.slotNo ≠ r.slotNo) :
    (DeleteRecord p r).1 = Status.OK ∧
    Live (DeleteRecord p r).2 sid.slotNo ∧
    (GetRecord p sid out len0).1 = Status.OK ∧
    (GetRecord (DeleteRecord p r).2 sid out len0).1 = Status.OK ∧
    (GetRecord (DeleteRecord p r).2 sid out len0).2.2 = (GetRecord p sid out len0).2.2 ∧
    (GetRecord (DeleteRecord p r).2 sid out len0).2.1 = (GetRecord p sid out len0).2.1 ∧
    readBytes (GetRecord (DeleteRecord p r).2 sid out len0).2.1 0
        (p.slots sid.slotNo).length.toNat =
      readBytes p.data (p.slots sid.slotNo).offset (p.slots sid.slotNo).length.toNat := by
  have hd := DeleteRecord_live hinv r hr
  generalize DeleteRecord p r = d at hd ⊢
  have hlen := hd.slotLen _ hne
  have hoff := hd.slotOff _ hs hne
  have hdisj := hinv.disjoint sid.slotNo r.slotNo hs hr hne
  have hin := hinv.inData sid.slotNo hs
  have hinr := hinv.inData r.slotNo hr
  have hnum := hd.numOfSlots
  have hc := hinv.cap
  have hfl := hinv.fillLo
  obtain ⟨hs0, hs1, hs2⟩ := hs
  obtain ⟨hr0, hr1, hr2⟩ := hr
  have hc1 : ¬ (sid.slotNo ≥ p.numOfSlots ∨ (p.slots sid.slotNo).length = 0) := by omega
  have hw : toSizeT (p.slots sid.slotNo).length = (p.slots sid.slotNo).length :=
    toSizeT_of_range (by omega) (by omega)
  have hbuf : (GetRecord d.2 sid out len0).2.1 = (GetRecord p sid out len0).2.1 := by
    simp only [GetRecord, hnum, hlen, hc1, if_false, hw]
    funext a
    simp only [memcpy]
    by_cases ha : 0 ≤ a ∧ a < 0 + (p.slots sid.slotNo).length
    · simp only [ha, and_self, if_true]
      rw [hd.data, hoff]
      by_cases hlt : (p.slots sid.slotNo).offset < (p.slots r.slotNo).offset
      · have hin2 : p.fillPtr + (p.slots r.slotNo).length ≤
              (p.slots sid.slotNo).offset + (p.slots r.slotNo).length + (a - 0) ∧
            (p.slots sid.slotNo).offset + (p.slots r.slotNo).length + (a - 0) <
              (p.slots r.slotNo).offset + (p.slots r.slotNo).length := by omega
        simp only [hlt, if_true, hin2, and_self]
        congr 1
        omega
      · have hin2 : ¬ (p.fillPtr + (p.slots r.slotNo).length ≤
              (p.slots sid.slotNo).offset + (a - 0) ∧
            (p.slots sid.slotNo).offset + (a - 0) <
              (p.slots r.slotNo).offset + (p.slots r.slotNo).length) := by omega
        simp only [hlt, if_false, hin2]
    · simp only [ha, if_false]
  refine ⟨hd.status, ⟨hs0, by omega, by omega⟩, ?_, ?_, ?_, hbuf, ?_⟩
  · simp only [GetRecord, hc1, if_false]
  · simp only [GetRecord, hnum, hlen, hc1, if_false]
  · simp only [GetRecord, hnum, hlen, hc1, if_false]
  · rw [hbuf]
    simp only [GetRecord, hc1, if_false, hw, readBytes]
    apply List.map_congr_left
    intro i hi
    have hi2 : i < (p.slots sid.slotNo).length.toNat := List.mem_range.mp hi
    have hi3 : (i : Int) < (p.slots sid.slotNo).length := by omega
    have hi4 : (0 : Int) ≤ 0 + (i : Int) ∧ 0 + (i : Int) < 0 + (p.slots sid.slotNo).length := by
      omega
    simp only [memcpy, hi4, and_self, if_true]
    congr 1
    omega

/-- Witness of C4: deleting "alpha" (slot 0) from the sample page leaves "beta"
(slot 1) readable with the same bytes. -/
theorem delete_keeps_other_records_witness :
    PageInv 1024 page2 ∧ Live page2 0 ∧ Live page2 1 ∧
    (DeleteRecord page2 ⟨7, 0⟩).1 = Status.OK ∧
    Live (DeleteRecord page2 ⟨7, 0⟩).2 1 ∧
    readBytes (GetRecord (DeleteRecord page2 ⟨7, 0⟩).2 ⟨7, 1⟩ (bufOf []) 0).2.1 0 4
      = [98, 101, 116, 97] :=
  have hl0 : Live page2 0 := by unfold Live; decide
  have hl1 : Live page2 1 := by unfold Live; decide
  have h := delete_keeps_other_records 1024 page2 ⟨7, 0⟩ ⟨7, 1⟩ (bufOf []) 0 page2_inv
    hl0 hl1 (by decide)
  ⟨page2_inv, hl0, hl1, h.1, h.2.1, by decide⟩

/-- C6 (delete reclaims space).  On a page that satisfies the invariants,
`DeleteRecord` on a live record of length `L` returns `OK`, adds `L` to
`freeSpace` and to `fillPtr`, keeps `numOfSlots`, and leaves the slot with
length 0; in particular after inserting a record that fits (length between 1
and `AvailableSpace()`), deleting it gives back `freeSpace = F1 + length`, `F1`
being `freeSpace` after the insert. -/
theorem delete_reclaims_space (C : Int) (p : Page) (hinv : PageInv C p) :
    (∀ rid : RecordID, Live p rid.slotNo →
      (DeleteRecord p rid).1 = Status.OK ∧
      (DeleteRecord p rid).2.freeSpace = p.freeSpace + (p.slots rid.slotNo).length ∧
      (DeleteRecord p rid).2.fillPtr = p.fillPtr + (p.slots rid.slotNo).length ∧
      (DeleteRecord p rid).2.numOfSlots = p.numOfSlots ∧
      ((DeleteRecord p rid).2.slots rid.slotNo).length = 0) ∧
    (∀ (recPtr : Mem) (length : Int) (rid0 : RecordID),
      1 ≤ length → length ≤ AvailableSpace p →
      (InsertRecord p recPtr length rid0).1 = Status.OK ∧
      (DeleteRecord (InsertRecord p recPtr length rid0).2.1
        (InsertRecord p recPtr length rid0).2.2).1 = Status.OK ∧
      (DeleteRecord (InsertRecord p recPtr length rid0).2.1
        (InsertRecord p recPtr length rid0).2.2).2.freeSpace =
        (InsertRecord p recPtr length rid0).2.1.freeSpace + length) := by
  constructor
  · intro rid hr
    have hd := DeleteRecord_live hinv rid hr
    exact ⟨hd.status, hd.freeSpace, hd.fillPtr, hd.numOfSlots, hd.slotDel⟩
  · intro recPtr length rid0 h1 h2
    have hs := InsertRecord_fits hinv recPtr length rid0 h1 h2
    have hinv2 := InsertRecord_inv hinv recPtr length rid0 h1 h2
    obtain ⟨h0k, hkn, _⟩ := hs.chosen hinv
    have hnew := hs.slot_new
    have hlive : Live (InsertRecord p recPtr length rid0).2.1
        (InsertRecord p recPtr length rid0).2.2.slotNo := by
      refine ⟨h0k, hkn, ?_⟩
      rw [hnew]
      simp only
      omega
    have hd := DeleteRecord_live hinv2 _ hlive
    refine ⟨hs.status, hd.status, ?_⟩
    rw [hd.freeSpace, hnew]

/-- Witness of C6: on the sample page "beta" (slot 1, 4 bytes) is deleted, and
a 10-byte record is inserted and deleted again. -/
theorem delete_reclaims_space_witness :
    PageInv 1024 page2 ∧ Live page2 1 ∧
    (DeleteRecord page2 ⟨7, 1⟩).2.freeSpace = page2.freeSpace + 4 ∧
    (DeleteRecord (InsertRecord page2 (bufOf []) 10 ⟨0, 0⟩).2.1
        (InsertRecord page2 (bufOf []) 10 ⟨0, 0⟩).2.2).2.freeSpace =
      (InsertRecord page2 (bufOf []) 10 ⟨0, 0⟩).2.1.freeSpace + 10 :=
  have hl1 : Live page2 1 := by unfold Live; decide
  have h := delete_reclaims_space 1024 page2 page2_inv
  ⟨page2_inv, hl1, (h.1 ⟨7, 1⟩ hl1).2.1,
    (h.2 (bufOf []) 10 ⟨0, 0⟩ (by decide) (by decide)).2.2⟩

/-! ## Iteration -/

theorem mem_usedFrom (slots : Int → Slot) :
    ∀ (n : Nat) (i j : Int), j ∈ usedFrom slots i n ↔
      (i ≤ j ∧ j < i + n ∧ (slots j).length ≠ 0) := by
  intro n
  induction n with
  | zero =>
    intro i j
    simp only [usedFrom, List.not_mem_nil, false_iff]
    rintro ⟨h1, h2, _⟩
    simp only [Nat.cast_zero] at h2
    omega
  | succ n ih =>
    intro i j
    by_cases hp : (slots i).length = 0
    · have hu : isUsed (slots i) = false := by simp [isUsed, hp]
      simp only [usedFrom, hu, Bool.false_eq_true, if_false, ih (i + 1) j]
      constructor
      · rintro ⟨h1, h2, h3⟩
        exact ⟨by omega, by push_cast; omega, h3⟩
      · rintro ⟨h1, h2, h3⟩
        have hne : j ≠ i := fun h => h3 (h ▸ hp)
        push_cast at h2
        exact ⟨by omega, by omega, h3⟩
    · have hu : isUsed (slots i) = true := by simp [isUsed, hp]
      simp only [usedFrom, hu, if_true, List.mem_cons, ih (i + 1) j]
      constructor
      · rintro (h | ⟨h1, h2, h3⟩)
        · subst h
          exact ⟨le_refl _, by push_cast; omega, hp⟩
        · exact ⟨by omega, by push_cast; omega, h3⟩
      · rintro ⟨h1, h2, h3⟩
        push_cast at h2
        by_cases hji : j = i
        · exact Or.inl hji
        · exact Or.inr ⟨by omega, by omega, h3⟩

theorem usedFrom_pairwise (slots : Int → Slot) :
    ∀ (n : Nat) (i : Int), (usedFrom slots i n).Pairwise (· < ·) := by
  intro n
  induction n with
  | zero =>
    intro i
    simp only [usedFrom, List.Pairwise.nil]
  | succ n ih =>
    intro i
    by_cases hu : isUsed (slots i) = true
    · simp only [usedFrom, hu, if_true, List.pairwise_cons]
      refine ⟨?_, ih (i + 1)⟩
      intro j hj
      have := ((mem_usedFrom slots n (i + 1) j).mp hj).1
      omega
    · simp only [usedFrom, hu, if_false]
      exact ih (i + 1)

theorem usedFrom_of_find_none (slots : Int → Slot) :
    ∀ (n : Nat) (i : Int), findSlot isUsed slots i n = none → usedFrom slots i n = [] := by
  intro n
  induction n with
  | zero =>
    intro i _
    rfl
  | succ n ih =>
    intro i h
    by_cases hu : isUsed (slots i) = true
    · simp only [findSlot, hu, if_true] at h
      cases h
    · simp only [findSlot, hu, if_false] at h
      simp only [usedFrom, hu, if_false]
      exact ih (i + 1) h

theorem usedFrom_of_find_some (slots : Int → Slot) :
    ∀ (n : Nat) (i j : Int) (m : Nat), findSlot isUsed slots i n = some j →
      i + (n : Int) = j + 1 + (m : Int) →
      usedFrom slots i n = j :: usedFrom slots (j + 1) m := by
  intro n
  induction n with
  | zero =>
    intro i j m h _
    simp only [findSlot] at h
    cases h
  | succ n ih =>
    intro i j m h hm
    by_cases hu : isUsed (slots i) = true
    · simp only [findSlot, hu, if_true, Option.some.injEq] at h
      subst h
      have hnm : n = m := by
        push_cast at hm
        omega
      subst hnm
      simp only [usedFrom, hu, if_true]
    · simp only [findSlot, hu, if_false] at h
      simp only [usedFrom, hu, if_false]
      exact ih (i + 1) j m h (by push_cast at hm; omega)

theorem scanFrom_stop (p : Page) (fuel : Nat) (st : Status) (rid : RecordID)
    (hst : st ≠ Status.OK) (hfuel : 1 ≤ fuel) :
    scanFrom p fuel (st, rid) = some ([], st) := by
  obtain ⟨f, rfl⟩ : ∃ f, fuel = f + 1 := ⟨fuel - 1, by omega⟩
  simp only [scanFrom, hst, if_false]

theorem scanFrom_live (p : Page) :
    ∀ (fuel : Nat) (pg k : Int), 0 ≤ k → k < p.numOfSlots → (p.slots k).length ≠ 0 →
      (p.numOfSlots - k).toNat + 1 ≤ fuel →
      scanFrom p fuel (Status.OK, { pageNo := pg, slotNo := k }) =
        some (k :: usedFrom p.slots (k + 1) (p.numOfSlots - (k + 1)).toNat, Status.DONE) := by
  intro fuel
  induction fuel with
  | zero =>
    intro pg k _ _ _ h
    omega
  | succ fuel ih =>
    intro pg k h0 h1 h2 hf
    have hval : ¬ (RecordID.gtInt { pageNo := pg, slotNo := k } p.numOfSlots = true ∨
        RecordID.ltInt { pageNo := pg, slotNo := k } 0 = true ∨ (p.slots k).length = 0) := by
      simp only [RecordID.gtInt, RecordID.ltInt, decide_eq_true_eq]
      omega
    have hcnt : ((p.numOfSlots - (k + 1)).toNat : Int) = p.numOfSlots - (k + 1) :=
      Int.toNat_of_nonneg (by omega)
    have hk : ((p.numOfSlots - k).toNat : Int) = p.numOfSlots - k :=
      Int.toNat_of_nonneg (by omega)
    cases hfind : findSlot isUsed p.slots (k + 1) (p.numOfSlots - (k + 1)).toNat with
    | none =>
      have hstop := scanFrom_stop p fuel Status.DONE { pageNo := pg, slotNo := k }
        (by decide) (by omega)
      simp only [scanFrom, if_true, NextRecord, hval, if_false, hfind, hstop, Option.map_some',
        usedFrom_of_find_none _ _ _ hfind]
    | some j =>
      obtain ⟨hj0, hj1, hj2, _⟩ := (findSlot_eq_some _ _ _ _ _).mp hfind
      have hjl : (p.slots j).length ≠ 0 := by simpa [isUsed] using hj2
      have hj : ((p.numOfSlots - j).toNat : Int) = p.numOfSlots - j :=
        Int.toNat_of_nonneg (by omega)
      have hjc : ((p.numOfSlots - (j + 1)).toNat : Int) = p.numOfSlots - (j + 1) :=
        Int.toNat_of_nonneg (by omega)
      have hrec := ih p.pid j (by omega) (by omega) hjl (by omega)
      have hlist := usedFrom_of_find_some p.slots _ (k + 1) j (p.numOfSlots - (j + 1)).toNat
        hfind (by omega)
      simp only [scanFrom, if_true, NextRecord, hval, if_false, hfind, hrec, Option.map_some',
        hlist]

theorem scanAll_eq (p : Page) (fuel : Nat) (rid0 : RecordID)
    (hfuel : p.numOfSlots.toNat + 1 ≤ fuel) :
    scanAll p fuel rid0 = some (usedFrom p.slots 0 p.numOfSlots.toNat, Status.DONE) := by
  cases hfind : findSlot isUsed p.slots 0 p.numOfSlots.toNat with
  | none =>
    simp only [scanAll, FirstRecord, hfind, usedFrom_of_find_none _ _ _ hfind]
    exact scanFrom_stop p fuel Status.DONE rid0 (by decide) (by omega)
  | some j =>
    obtain ⟨hj0, hj1, hj2, _⟩ := (findSlot_eq_some _ _ _ _ _).mp hfind
    have hjl : (p.slots j).length ≠ 0 := by simpa [isUsed] using hj2
    have hn : (p.numOfSlots.toNat : Int) = p.numOfSlots := by
      apply Int.toNat_of_nonneg
      by_contra hneg
      have : p.numOfSlots.toNat = 0 := Int.toNat_eq_zero.mpr (by omega)
      rw [this] at hj1
      simp only [Nat.cast_zero] at hj1
      omega
    have hjc : ((p.numOfSlots - (j + 1)).toNat : Int) = p.numOfSlots - (j + 1) :=
      Int.toNat_of_nonneg (by omega)
    have hjn : ((p.numOfSlots - j).toNat : Int) = p.numOfSlots - j :=
      Int.toNat_of_nonneg (by omega)
    have hlist := usedFrom_of_find_some p.slots _ 0 j (p.numOfSlots - (j + 1)).toNat
      hfind (by omega)
    simp only [scanAll, FirstRecord, hfind, hlist]
    exact scanFrom_live p fuel p.pid j hj0 (by omega) hjl (by omega)

/-- C8 as stated fails: on the page that `InsertRecord` with `length = 40000`
returned with `OK`, the only slot has the length -25536, so no slot has
`length > 0`; yet `FirstRecord` returns `OK` with slot 0 instead of `DONE`, and
the traversal hands out `[0]`. -/
theorem iteration_hands_out_negative_length_slot :
    (InsertRecord page0 zBuf 40000 ⟨0, 0⟩).1 = Status.OK ∧
    pageNeg.numOfSlots = 1 ∧ (pageNeg.slots 0).length = -25536 ∧
    (¬ ∃ i, Live pageNeg i) ∧
    (FirstRecord pageNeg ⟨0, 0⟩).1 = Status.OK ∧
    (FirstRecord pageNeg ⟨0, 0⟩).2.slotNo = 0 ∧
    (FirstRecord pageNeg ⟨0, 0⟩).1 ≠ Status.DONE ∧
    scanAll pageNeg 2 ⟨0, 0⟩ = some ([0], Status.DONE) := by
  refine ⟨by decide, by decide, by decide, ?_, by decide, by decide, by decide, by decide⟩
  rintro ⟨i, h0, h1, h2⟩
  have hn : pageNeg.numOfSlots = 1 := by decide
  rw [hn] at h1
  have hi : i = 0 := by omega
  subst hi
  revert h2
  decide

/-- C8 amended (iteration excludes tombstones and is complete).  On every page
`FirstRecord` returns `DONE` when no directory slot has a nonzero length and
otherwise `OK` with the lowest slot index whose length is nonzero; and
`FirstRecord` followed by `NextRecord` on the id just returned, as long as the
status is `OK`, ends with `DONE` after handing out exactly the indices of the
directory slots with `length ≠ 0`, each once, in strictly increasing order.  On
a page whose directory slots have lengths `≥ 0` these are exactly the slots with
`length > 0`.  The traversal needs `numOfSlots + 1` calls at most (the fuel). -/
theorem iteration_visits_nonzero_slots (p : Page) (rid0 : RecordID) (fuel : Nat)
    (hfuel : p.numOfSlots.toNat + 1 ≤ fuel) :
    ((¬ ∃ i, 0 ≤ i ∧ i < p.numOfSlots ∧ (p.slots i).length ≠ 0) →
        (FirstRecord p rid0).1 = Status.DONE) ∧
    ((∃ i, 0 ≤ i ∧ i < p.numOfSlots ∧ (p.slots i).length ≠ 0) →
        (FirstRecord p rid0).1 = Status.OK ∧
        0 ≤ (FirstRecord p rid0).2.slotNo ∧
        (FirstRecord p rid0).2.slotNo < p.numOfSlots ∧
        (p.slots (FirstRecord p rid0).2.slotNo).length ≠ 0 ∧
        ∀ i, 0 ≤ i → i < p.numOfSlots → (p.slots i).length ≠ 0 →
          (FirstRecord p rid0).2.slotNo ≤ i) ∧
    ∃ l : List Int, scanAll p fuel rid0 = some (l, Status.DONE) ∧
      l.Pairwise (· < ·) ∧
      (∀ i, i ∈ l ↔ (0 ≤ i ∧ i < p.numOfSlots ∧ (p.slots i).length ≠ 0)) ∧
      ((∀ i, 0 ≤ i → i < p.numOfSlots → 0 ≤ (p.slots i).length) →
        ∀ i, i ∈ l ↔ Live p i) := by
  have hbound : ∀ (j : Int), 0 ≤ j → j < 0 + (p.numOfSlots.toNat : Int) →
      j < p.numOfSlots ∧ (p.numOfSlots.toNat : Int) = p.numOfSlots := by
    intro j hj0 hj1
    have hpos : 0 ≤ p.numOfSlots := by
      by_contra hneg
      have : p.numOfSlots.toNat = 0 := Int.toNat_eq_zero.mpr (by omega)
      rw [this] at hj1
      simp only [Nat.cast_zero] at hj1
      omega
    have hn : (p.numOfSlots.toNat : Int) = p.numOfSlots := Int.toNat_of_nonneg hpos
    exact ⟨by omega, hn⟩
  have hmem : ∀ i, i ∈ usedFrom p.slots 0 p.numOfSlots.toNat ↔
      (0 ≤ i ∧ i < p.numOfSlots ∧ (p.slots i).length ≠ 0) := by
    intro i
    rw [mem_usedFrom]
    constructor
    · rintro ⟨h0, h1, h2⟩
      exact ⟨h0, (hbound i h0 h1).1, h2⟩
    · rintro ⟨h0, h1, h2⟩
      have hn : (p.numOfSlots.toNat : Int) = p.numOfSlots := Int.toNat_of_nonneg (by omega)
      exact ⟨h0, by omega, h2⟩
  refine ⟨?_, ?_, usedFrom p.slots 0 p.numOfSlots.toNat, scanAll_eq p fuel rid0 hfuel,
    usedFrom_pairwise _ _ _, hmem, ?_⟩
  · intro hno
    cases hfind : findSlot isUsed p.slots 0 p.numOfSlots.toNat with
    | none => simp only [FirstRecord, hfind]
    | some j =>
      exfalso
      obtain ⟨hj0, hj1, hj2, _⟩ := (findSlot_eq_some _ _ _ _ _).mp hfind
      have hjl : (p.slots j).length ≠ 0 := by simpa [isUsed] using hj2
      exact hno ⟨j, hj0, (hbound j hj0 hj1).1, hjl⟩
  · rintro ⟨i, hi0, hi1, hi2⟩
    have hn : (p.numOfSlots.toNat : Int) = p.numOfSlots := Int.toNat_of_nonneg (by omega)
    cases hfind : findSlot isUsed p.slots 0 p.numOfSlots.toNat with
    | none =>
      exfalso
      have := (findSlot_eq_none _ _ _ _).mp hfind i hi0 (by omega)
      have h0 : (p.slots i).length = 0 := by simpa [isUsed] using this
      exact hi2 h0
    | some j =>
      obtain ⟨hj0, hj1, hj2, hj3⟩ := (findSlot_eq_some _ _ _ _ _).mp hfind
      have hjl : (p.slots j).length ≠ 0 := by simpa [isUsed] using hj2
      simp only [FirstRecord, hfind]
      refine ⟨trivial, hj0, by omega, hjl, ?_⟩
      intro i2 h20 _ h22
      by_contra hlt
      have := hj3 i2 h20 (by omega)
      have h0 : (p.slots i2).length = 0 := by simpa [isUsed] using this
      exact h22 h0
  · intro hlen i
    rw [hmem]
    constructor
    · rintro ⟨h0, h1, h2⟩
      have := hlen i h0 h1
      exact ⟨h0, h1, by omega⟩
    · rintro ⟨h0, h1, h2⟩
      exact ⟨h0, h1, by omega⟩

/-- Witness of C8 amended: with records in slots 0, 1, 2 and slot 1 deleted,
the traversal hands out slots `[0, 2]` and then reports `DONE`. -/
theorem iteration_visits_nonzero_slots_witness :
    page3d.numOfSlots = 3 ∧ page3d.numOfSlots.toNat + 1 ≤ 4 ∧
    scanAll page3d 4 ⟨0, 0⟩ = some ([0, 2], Status.DONE) ∧
    (FirstRecord page3d ⟨0, 0⟩).2.slotNo = 0 ∧
    ∃ l : List Int, scanAll page3d 4 ⟨0, 0⟩ = some (l, Status.DONE) ∧
      l.Pairwise (· < ·) ∧
      (∀ i, i ∈ l ↔ (0 ≤ i ∧ i < page3d.numOfSlots ∧ (page3d.slots i).length ≠ 0)) ∧
      ((∀ i, 0 ≤ i → i < page3d.numOfSlots → 0 ≤ (page3d.slots i).length) →
        ∀ i, i ∈ l ↔ Live page3d i) :=
  ⟨by decide, by decide, by decide, by decide,
    (iteration_visits_nonzero_slots page3d ⟨0, 0⟩ 4 (by decide)).2.2⟩

/-! ## Evaluations at inputs where the code departs from the claims -/

/-- C7 (emptiness).  `IsEmpty()` answers `true` on a page that holds one record
(and `GetNumOfRecords()` is 1 there), and answers `false` after that record is
deleted, when no record is left (`GetNumOfRecords()` is 0, `numOfSlots` is 1):
the test inside its loop is inverted.  On the freshly initialised page it
answers `true`. -/
theorem isEmpty_inverted :
    IsEmpty page0 = true ∧ GetNumOfRecords page0 = 0 ∧
    IsEmpty page1 = true ∧ GetNumOfRecords page1 = 1 ∧
    (DeleteRecord page1 ⟨7, 0⟩).1 = Status.OK ∧
    IsEmpty (DeleteRecord page1 ⟨7, 0⟩).2 = false ∧
    GetNumOfRecords (DeleteRecord page1 ⟨7, 0⟩).2 = 0 ∧
    (DeleteRecord page1 ⟨7, 0⟩).2.numOfSlots = 1 := by
  decide

/-- C9 (delete of a slot index equal to `numOfSlots`).  After "alpha" and "beta"
are inserted, slot 0 is deleted and the directory is compacted, the page has one
slot; `DeleteRecord` on slot index 1 (`== numOfSlots`) returns `OK` instead of
`FAIL` and moves `fillPtr` from 1020 to 1024 and `freeSpace` from 1016 to 1020,
while slot 0 still holds the 4-byte record. -/
theorem delete_at_numOfSlots_succeeds :
    (CompactSlotDir (DeleteRecord page2 ⟨7, 0⟩).2).numOfSlots = 1 ∧
    (CompactSlotDir (DeleteRecord page2 ⟨7, 0⟩).2).fillPtr = 1020 ∧
    (CompactSlotDir (DeleteRecord page2 ⟨7, 0⟩).2).freeSpace = 1016 ∧
    (DeleteRecord (CompactSlotDir (DeleteRecord page2 ⟨7, 0⟩).2) ⟨7, 1⟩).1 = Status.OK ∧
    (DeleteRecord (CompactSlotDir (DeleteRecord page2 ⟨7, 0⟩).2) ⟨7, 1⟩).2.fillPtr = 1024 ∧
    (DeleteRecord (CompactSlotDir (DeleteRecord page2 ⟨7, 0⟩).2) ⟨7, 1⟩).2.freeSpace = 1020 ∧
    ((DeleteRecord (CompactSlotDir (DeleteRecord page2 ⟨7, 0⟩).2) ⟨7, 1⟩).2.slots 0).length
      = 4 := by
  decide

/-- C10 (`GetRecord` and `ReturnRecord` validate alike).  With slot index `-1`
`ReturnRecord` returns `FAIL`, but `GetRecord`, which has no test for a negative
index, reads the word before the directory and returns `OK` with its length (5)
when that word is not zero. -/
theorem getRecord_accepts_negative_slot :
    (ReturnRecord pageStray ⟨7, -1⟩ 0 0).1 = Status.FAIL ∧
    (GetRecord pageStray ⟨7, -1⟩ (bufOf []) 0).1 = Status.OK ∧
    (GetRecord pageStray ⟨7, -1⟩ (bufOf []) 0).2.2 = 5 := by
  decide

/-- C5 (insert does not disturb existing records).  On the page holding "alpha"
in slot 0, `InsertRecord` with `length = 65536` returns `OK` (the `short`
arithmetic on `freeSpace` and `fillPtr` wraps around); slot 0 keeps its offset
and length, the new record id is slot 1, but the copy of 65536 bytes starts at
`fillPtr` and overwrites the bytes of slot 0: `GetRecord` on slot 0 returned
"alpha" before and returns `zzzzz` after. -/
theorem insert_overlong_overwrites :
    PageInv 1024 page1 ∧ Live page1 0 ∧
    (InsertRecord page1 zBuf 65536 ⟨0, 0⟩).1 = Status.OK ∧
    (InsertRecord page1 zBuf 65536 ⟨0, 0⟩).2.2.slotNo = 1 ∧
    (InsertRecord page1 zBuf 65536 ⟨0, 0⟩).2.1.slots 0 = page1.slots 0 ∧
    readBytes (GetRecord page1 ⟨7, 0⟩ (bufOf []) 0).2.1 0 5 = [97, 108, 112, 104, 97] ∧
    (GetRecord (InsertRecord page1 zBuf 65536 ⟨0, 0⟩).2.1 ⟨7, 0⟩ (bufOf []) 0).1
      = Status.OK ∧
    readBytes (GetRecord (InsertRecord page1 zBuf 65536 ⟨0, 0⟩).2.1 ⟨7, 0⟩
        (bufOf []) 0).2.1 0 5 = [122, 122, 122, 122, 122] :=
  ⟨page1_inv, by unfold Live; decide, by decide, by decide, by decide, by decide, by decide,
    by decide⟩

/-- C11 (`NextRecord` validation).  On the compacted sample page
(`numOfSlots = 1`) the current id with slot index 1 (`== numOfSlots`) passes the
validation, because the test is `>` and the entry left behind by the
compaction has a nonzero length: `NextRecord` returns `DONE` instead of `FAIL`. -/
theorem nextRecord_at_numOfSlots_not_fail :
    pageC.numOfSlots = 1 ∧ (pageC.slots 1).length = 4 ∧
    (NextRecord pageC ⟨7, 1⟩ ⟨0, 0⟩).1 = Status.DONE := by
  decide

/-- C15 (zero-length insert).  On the freshly initialised page `InsertRecord`
with `length = 0` returns `OK` with record id `(7, 0)`, appends a slot whose
length is 0 (a tombstone) and takes `sizeof(Slot)` from `freeSpace`; `GetRecord`
on the id just issued returns `FAIL`. -/
theorem insert_zero_length_accepted :
    page0.numOfSlots = 0 ∧ page0.freeSpace = 1024 ∧
    (InsertRecord page0 (bufOf []) 0 ⟨0, 0⟩).1 = Status.OK ∧
    (InsertRecord page0 (bufOf []) 0 ⟨0, 0⟩).2.2 = ⟨7, 0⟩ ∧
    (InsertRecord page0 (bufOf []) 0 ⟨0, 0⟩).2.1.numOfSlots = 1 ∧
    ((InsertRecord page0 (bufOf []) 0 ⟨0, 0⟩).2.1.slots 0).length = 0 ∧
    (InsertRecord page0 (bufOf []) 0 ⟨0, 0⟩).2.1.freeSpace = 1020 ∧
    (GetRecord (InsertRecord page0 (bufOf []) 0 ⟨0, 0⟩).2.1 ⟨7, 0⟩ (bufOf []) 0).1
      = Status.FAIL := by
  decide

/-- C16 (length beyond the capacity).  On the empty page of capacity 1024
`InsertRecord` returns `OK` for `length = 65536` (a slot with length 0 is
appended, `freeSpace` drops to 1020) and for `length = 40000` (`fillPtr` becomes
26560, `freeSpace` 26556 and the slot length -25536): the 16-bit `freeSpace`
wraps around to a value that is not negative. -/
theorem insert_beyond_capacity_accepted :
    PageInv 1024 page0 ∧
    (InsertRecord page0 zBuf 65536 ⟨0, 0⟩).1 = Status.OK ∧
    (InsertRecord page0 zBuf 65536 ⟨0, 0⟩).2.1.numOfSlots = 1 ∧
    (InsertRecord page0 zBuf 65536 ⟨0, 0⟩).2.1.freeSpace = 1020 ∧
    (InsertRecord page0 zBuf 65536 ⟨0, 0⟩).2.1.slots 0 = ⟨1024, 0⟩ ∧
    (InsertRecord page0 zBuf 65536 ⟨0, 0⟩).2.1.data 1024 = 122 ∧
    (InsertRecord page0 zBuf 40000 ⟨0, 0⟩).1 = Status.OK ∧
    (InsertRecord page0 zBuf 40000 ⟨0, 0⟩).2.1.numOfSlots = 1 ∧
    (InsertRecord page0 zBuf 40000 ⟨0, 0⟩).2.1.fillPtr = 26560 ∧
    (InsertRecord page0 zBuf 40000 ⟨0, 0⟩).2.1.freeSpace = 26556 ∧
    (InsertRecord page0 zBuf 40000 ⟨0, 0⟩).2.1.slots 0 = ⟨26560, -25536⟩ :=
  ⟨page0_inv, by decide, by decide, by decide, by decide, by decide, by decide, by decide,
    by decide, by decide, by decide⟩

/-- C19 (space accounting).  `Init` gives `numOfSlots = 0`, `fillPtr = C`,
`freeSpace = C` and both links `INVALID_PAGE`, and the accounting predicate
holds there; but on the freshly initialised page of capacity 1024 `InsertRecord`
with `length = 40000` returns `OK` and leaves `fillPtr = 26560 > C`, so the
predicate does not hold afterwards. -/
theorem accounting_broken_by_overlong_insert :
    (Init 1024 blank 7).numOfSlots = 0 ∧ (Init 1024 blank 7).fillPtr = 1024 ∧
    (Init 1024 blank 7).freeSpace = 1024 ∧ (Init 1024 blank 7).prevPage = INVALID_PAGE ∧
    (Init 1024 blank 7).nextPage = INVALID_PAGE ∧
    PageInv 1024 page0 ∧ Accounting 1024 page0 ∧
    (InsertRecord page0 zBuf 40000 ⟨0, 0⟩).1 = Status.OK ∧
    ¬ Accounting 1024 (InsertRecord page0 zBuf 40000 ⟨0, 0⟩).2.1 :=
  ⟨by decide, by decide, by decide, by decide, by decide, page0_inv,
    by unfold Accounting; decide, by decide, by unfold Accounting; decide⟩

/-- C20 (first-fit commit).  On the page holding "alpha" (no tombstone,
`numOfSlots = 1`) `InsertRecord` with `L = 65536` returns `OK` with record id
`(7, 1)`, but `freeSpace` decreases by `sizeof(Slot)` only (1015 to 1011), not
by `L + sizeof(Slot)`, `fillPtr` stays 1019 instead of decreasing by `L`, and
the chosen slot ends with length 0, not `L`. -/
theorem insert_overlong_commit :
    PageInv 1024 page1 ∧ page1.freeSpace = 1015 ∧ page1.fillPtr = 1019 ∧
    page1.numOfSlots = 1 ∧
    (InsertRecord page1 zBuf 65536 ⟨0, 0⟩).1 = Status.OK ∧
    (InsertRecord page1 zBuf 65536 ⟨0, 0⟩).2.2 = ⟨7, 1⟩ ∧
    (InsertRecord page1 zBuf 65536 ⟨0, 0⟩).2.1.numOfSlots = 2 ∧
    (InsertRecord page1 zBuf 65536 ⟨0, 0⟩).2.1.freeSpace = 1011 ∧
    (InsertRecord page1 zBuf 65536 ⟨0, 0⟩).2.1.fillPtr = 1019 ∧
    (InsertRecord page1 zBuf 65536 ⟨0, 0⟩).2.1.slots 1 = ⟨1019, 0⟩ :=
  ⟨page1_inv, by decide, by decide, by decide, by decide, by decide, by decide, by decide,
    by decide, by decide⟩

/-! ## DeleteRecord keeps the invariants -/

theorem DeleteSpec.live_iff {p : Page} {rid : RecordID} {r : Status × Page}
    (hd : DeleteSpec p rid r) (i : Int) :
    Live r.2 i ↔ (Live p i ∧ i ≠ rid.slotNo) := by
  constructor
  · rintro ⟨h0, h1, h2⟩
    have hne : i ≠ rid.slotNo := by
      intro h
      rw [h, hd.slotDel] at h2
      omega
    rw [hd.slotLen i hne] at h2
    rw [hd.numOfSlots] at h1
    exact ⟨⟨h0, h1, h2⟩, hne⟩
  · rintro ⟨⟨h0, h1, h2⟩, hne⟩
    refine ⟨h0, ?_, ?_⟩
    · rw [hd.numOfSlots]
      exact h1
    · rw [hd.slotLen i hne]
      exact h2

theorem DeleteRecord_inv {C : Int} {p : Page} (hinv : PageInv C p) (rid : RecordID)
    (hr : Live p rid.slotNo) : PageInv C (DeleteRecord p rid).2 := by
  have hd := DeleteRecord_live hinv rid hr
  generalize DeleteRecord p rid = r at hd ⊢
  have hinr := hinv.inData rid.slotNo hr
  have hacc := hinv.account
  have hfn := hinv.freeNonneg
  have hfl := hinv.fillLo
  have hn := hinv.numNonneg
  have hrl := hr.2.2
  have hfp := hd.fillPtr
  have hfs := hd.freeSpace
  have hns := hd.numOfSlots
  simp only [sizeofSlot] at hacc
  have key : ∀ i, Live r.2 i → Live p i ∧ i ≠ rid.slotNo ∧
      (r.2.slots i).length = (p.slots i).length ∧
      (((p.slots i).offset + (p.slots i).length ≤ (p.slots rid.slotNo).offset ∧
          (r.2.slots i).offset = (p.slots i).offset + (p.slots rid.slotNo).length) ∨
        ((p.slots rid.slotNo).offset + (p.slots rid.slotNo).length ≤ (p.slots i).offset ∧
          (r.2.slots i).offset = (p.slots i).offset)) := by
    intro i hl
    obtain ⟨hlp, hne⟩ := (hd.live_iff i).mp hl
    have hoff := hd.slotOff i hlp hne
    have hdis := hinv.disjoint i rid.slotNo hlp hr hne
    have hil := hlp.2.2
    refine ⟨hlp, hne, hd.slotLen i hne, ?_⟩
    by_cases hlt : (p.slots i).offset < (p.slots rid.slotNo).offset
    · simp only [hlt, if_true] at hoff
      exact Or.inl ⟨by omega, hoff⟩
    · simp only [hlt, if_false] at hoff
      exact Or.inr ⟨by omega, hoff⟩
  refine ⟨hinv.cap, by omega, by omega, by omega, by omega, ?_, ?_, ?_, ?_⟩
  · simp only [sizeofSlot]
    omega
  · intro i h0 h1
    by_cases hne : i = rid.slotNo
    · rw [hne, hd.slotDel]
    · rw [hd.slotLen i hne]
      exact hinv.lenNonneg i h0 (by omega)
  · intro i hl
    obtain ⟨hlp, _, hlen, hcase⟩ := key i hl
    have hin := hinv.inData i hlp
    rw [hlen]
    rcases hcase with ⟨h1, h2⟩ | ⟨h1, h2⟩ <;> rw [h2] <;> omega
  · intro i j hi hj hij
    obtain ⟨hlpi, _, hleni, hcasei⟩ := key i hi
    obtain ⟨hlpj, _, hlenj, hcasej⟩ := key j hj
    have hdis := hinv.disjoint i j hlpi hlpj hij
    have hli := hlpi.2.2
    have hlj := hlpj.2.2
    rw [hleni, hlenj]
    rcases hcasei with ⟨h1, h2⟩ | ⟨h1, h2⟩ <;> rcases hcasej with ⟨h3, h4⟩ | ⟨h3, h4⟩ <;>
      rw [h2, h4] <;> omega

theorem page3_inv : PageInv 1024 page3 :=
  InsertRecord_inv page2_inv _ 5 _ (by decide) (by decide)

theorem pageT_inv : PageInv 1024 pageT :=
  DeleteRecord_inv page3_inv ⟨7, 0⟩ (by unfold Live; decide)

/-! ## Tombstone reuse -/

/-- C14 as stated fails: on the sample page with a tombstone in slot 0 and
records in slots 1 and 2 (the invariants hold), the record in slot 2 (5 bytes)
is deleted and a 3-byte record is inserted; the insert returns `OK` and
`numOfSlots` stays 3, but the record id it hands out is slot 0, not slot 2. -/
theorem reuse_takes_lowest_tombstone :
    PageInv 1024 pageT ∧ Live pageT 2 ∧ (pageT.slots 2).length = 5 ∧
    (DeleteRecord pageT ⟨7, 2⟩).1 = Status.OK ∧
    (InsertRecord (DeleteRecord pageT ⟨7, 2⟩).2 zBuf 3 ⟨0, 0⟩).1 = Status.OK ∧
    (InsertRecord (DeleteRecord pageT ⟨7, 2⟩).2 zBuf 3 ⟨0, 0⟩).2.1.numOfSlots = 3 ∧
    (InsertRecord (DeleteRecord pageT ⟨7, 2⟩).2 zBuf 3 ⟨0, 0⟩).2.2.slotNo = 0 ∧
    (InsertRecord (DeleteRecord pageT ⟨7, 2⟩).2 zBuf 3 ⟨0, 0⟩).2.2.slotNo ≠ 2 :=
  ⟨pageT_inv, by unfold Live; decide, by decide, by decide, by decide, by decide, by decide,
    by decide⟩

/-- C14 amended (tombstone reuse).  On a page that satisfies the invariants,
after `DeleteRecord` on a live slot `k` returns `OK`, an `InsertRecord` whose
length is between 1 and the deleted record's length returns `OK` and leaves
`numOfSlots` as it was; the slot index it hands out is the lowest tombstoned
slot index of the page after the delete, which is at most `k`, and is `k`
itself when no slot below `k` was a tombstone before the delete. -/
theorem delete_then_insert_reuses_slot (C : Int) (p : Page) (rid : RecordID) (recPtr : Mem)
    (length : Int) (rid0 : RecordID) (hinv : PageInv C p) (hk : Live p rid.slotNo)
    (h1 : 1 ≤ length) (h2 : length ≤ (p.slots rid.slotNo).length) :
    (DeleteRecord p rid).1 = Status.OK ∧
    (InsertRecord (DeleteRecord p rid).2 recPtr length rid0).1 = Status.OK ∧
    (InsertRecord (DeleteRecord p rid).2 recPtr length rid0).2.1.numOfSlots =
      (DeleteRecord p rid).2.numOfSlots ∧
    (DeleteRecord p rid).2.numOfSlots = p.numOfSlots ∧
    0 ≤ (InsertRecord (DeleteRecord p rid).2 recPtr length rid0).2.2.slotNo ∧
    (InsertRecord (DeleteRecord p rid).2 recPtr length rid0).2.2.slotNo ≤ rid.slotNo ∧
    ((DeleteRecord p rid).2.slots
      (InsertRecord (DeleteRecord p rid).2 recPtr length rid0).2.2.slotNo).length = 0 ∧
    (∀ i, 0 ≤ i → i < (InsertRecord (DeleteRecord p rid).2 recPtr length rid0).2.2.slotNo →
      ((DeleteRecord p rid).2.slots i).length ≠ 0) ∧
    ((∀ i, 0 ≤ i → i < rid.slotNo → (p.slots i).length ≠ 0) →
      (InsertRecord (DeleteRecord p rid).2 recPtr length rid0).2.2.slotNo = rid.slotNo) := by
  have hd := DeleteRecord_live hinv rid hk
  have hinv2 := DeleteRecord_inv hinv rid hk
  generalize DeleteRecord p rid = d at hd hinv2 ⊢
  have hfs := hd.freeSpace
  have hns := hd.numOfSlots
  have hfn := hinv.freeNonneg
  have htomb : ∃ i, 0 ≤ i ∧ i < d.2.numOfSlots ∧ (d.2.slots i).length = 0 :=
    ⟨rid.slotNo, hk.1, by rw [hns]; exact hk.2.1, hd.slotDel⟩
  have hav : AvailableSpace d.2 = d.2.freeSpace := AvailableSpace_of_free d.2 htomb
  have hfit : length ≤ AvailableSpace d.2 := by
    rw [hav, hfs]
    omega
  have hs := InsertRecord_fits hinv2 recPtr length rid0 h1 hfit
  generalize InsertRecord d.2 recPtr length rid0 = r at hs ⊢
  rcases hs.slot with ⟨hfind, _, _, _⟩ | ⟨hfind, hn2, _⟩
  · exfalso
    obtain ⟨i, h0, hi1, hi2⟩ := htomb
    exact findFree_none hfind i h0 hi1 hi2
  · obtain ⟨hj0, hj1, hj2, hj3⟩ := findFree_some hfind
    have hle : r.2.2.slotNo ≤ rid.slotNo := by
      by_contra hgt
      exact hj3 rid.slotNo hk.1 (by omega) hd.slotDel
    refine ⟨hd.status, hs.status, hn2, hns, hj0, hle, hj2, hj3, ?_⟩
    intro hnone
    by_contra hne
    have hlt : r.2.2.slotNo < rid.slotNo := by omega
    have hlen := hd.slotLen r.2.2.slotNo (by omega)
    rw [hlen] at hj2
    exact hnone r.2.2.slotNo hj0 hlt hj2

/-- Witness of C14 amended: on the sample page with three records, "beta"
(slot 1, 4 bytes) is deleted and a 3-byte record is inserted; no slot below 1 is
a tombstone, and the insert hands out slot 1 again. -/
theorem delete_then_insert_reuses_slot_witness :
    PageInv 1024 page3 ∧ Live page3 1 ∧ (page3.slots 1).length = 4 ∧
    (InsertRecord (DeleteRecord page3 ⟨7, 1⟩).2 zBuf 3 ⟨0, 0⟩).1 = Status.OK ∧
    (InsertRecord (DeleteRecord page3 ⟨7, 1⟩).2 zBuf 3 ⟨0, 0⟩).2.1.numOfSlots = 3 ∧
    (InsertRecord (DeleteRecord page3 ⟨7, 1⟩).2 zBuf 3 ⟨0, 0⟩).2.2.slotNo = 1 :=
  have hl : Live page3 1 := by unfold Live; decide
  have h := delete_then_insert_reuses_slot 1024 page3 ⟨7, 1⟩ zBuf 3 ⟨0, 0⟩ page3_inv hl
    (by decide) (by decide)
  ⟨page3_inv, hl, by decide, h.2.1, by decide,
    h.2.2.2.2.2.2.2.2 (by
      intro i h0 h1
      have h2 : i < 1 := h1
      have hi : i = 0 := by omega
      subst hi
      decide)⟩

/-! ## The concrete scenario -/

/-- C17 as stated fails: in the scenario (capacity 1024, "alpha" then "beta"
inserted, slot 0 deleted) every step is as described except that the offset of
slot 1 does not decrease by 5. -/
theorem scenario_offset_does_not_decrease :
    ¬ ((InsertRecord page0 (bufOf [97, 108, 112, 104, 97]) 5 ⟨0, 0⟩).2.2.slotNo = 0 ∧
      page1.fillPtr = 1019 ∧
      (InsertRecord page1 (bufOf [98, 101, 116, 97]) 4 ⟨0, 0⟩).2.2.slotNo = 1 ∧
      page2.fillPtr = 1015 ∧
      (DeleteRecord page2 ⟨7, 0⟩).2.fillPtr = 1020 ∧
      ((DeleteRecord page2 ⟨7, 0⟩).2.slots 1).offset = (page2.slots 1).offset - 5 ∧
      ((DeleteRecord page2 ⟨7, 0⟩).2.slots 0).length = 0 ∧
      readBytes (GetRecord (DeleteRecord page2 ⟨7, 0⟩).2 ⟨7, 1⟩ (bufOf []) 0).2.1 0 4
        = [98, 101, 116, 97]) := by
  decide

/-- C17 amended (concrete scenario).  On a freshly initialised page of capacity
1024, inserting "alpha" (5 bytes) returns slot 0 and leaves `fillPtr = 1019`;
inserting "beta" (4 bytes) returns slot 1 and leaves `fillPtr = 1015`; deleting
slot 0 leaves `fillPtr = 1020` with the bytes of "beta" moved up by 5 (from
offset 1015 to offset 1020), the offset of slot 1 increased by 5 accordingly
(1015 to 1020), and slot 0 a tombstone; `GetRecord` on slot 1 still returns
"beta". -/
theorem scenario_alpha_beta :
    page0.fillPtr = 1024 ∧ page0.freeSpace = 1024 ∧ page0.numOfSlots = 0 ∧
    (InsertRecord page0 (bufOf [97, 108, 112, 104, 97]) 5 ⟨0, 0⟩).1 = Status.OK ∧
    (InsertRecord page0 (bufOf [97, 108, 112, 104, 97]) 5 ⟨0, 0⟩).2.2 = ⟨7, 0⟩ ∧
    page1.fillPtr = 1019 ∧
    (InsertRecord page1 (bufOf [98, 101, 116, 97]) 4 ⟨0, 0⟩).1 = Status.OK ∧
    (InsertRecord page1 (bufOf [98, 101, 116, 97]) 4 ⟨0, 0⟩).2.2 = ⟨7, 1⟩ ∧
    page2.fillPtr = 1015 ∧ (page2.slots 1).offset = 1015 ∧
    readBytes page2.data 1015 4 = [98, 101, 116, 97] ∧
    (DeleteRecord page2 ⟨7, 0⟩).1 = Status.OK ∧
    (DeleteRecord page2 ⟨7, 0⟩).2.fillPtr = 1020 ∧
    readBytes (DeleteRecord page2 ⟨7, 0⟩).2.data 1020 4 = [98, 101, 116, 97] ∧
    ((DeleteRecord page2 ⟨7, 0⟩).2.slots 1).offset = (page2.slots 1).offset + 5 ∧
    ((DeleteRecord page2 ⟨7, 0⟩).2.slots 1).length = 4 ∧
    ((DeleteRecord page2 ⟨7, 0⟩).2.slots 0).length = 0 ∧
    (GetRecord (DeleteRecord page2 ⟨7, 0⟩).2 ⟨7, 1⟩ (bufOf []) 0).1 = Status.OK ∧
    (GetRecord (DeleteRecord page2 ⟨7, 0⟩).2 ⟨7, 1⟩ (bufOf []) 0).2.2 = 4 ∧
    readBytes (GetRecord (DeleteRecord page2 ⟨7, 0⟩).2 ⟨7, 1⟩ (bufOf []) 0).2.1 0 4
      = [98, 101, 116, 97] := by
  decide

/-! ## CompactSlotDir -/

theorem slotList_congr (s1 s2 : Int → Slot) :
    ∀ (n : Nat) (i : Int), (∀ k, i ≤ k → k < i + n → s1 k = s2 k) →
      slotList s1 i n = slotList s2 i n := by
  intro n
  induction n with
  | zero =>
    intro i _
    rfl
  | succ n ih =>
    intro i h
    simp only [slotList]
    rw [h i (le_refl i) (by push_cast; omega), ih (i + 1)]
    intro k h1 h2
    exact h k (by omega) (by push_cast; omega)

theorem usedFrom_congr (s1 s2 : Int → Slot) :
    ∀ (n : Nat) (i : Int), (∀ k, i ≤ k → k < i + n → s1 k = s2 k) →
      usedFrom s1 i n = usedFrom s2 i n := by
  intro n
  induction n with
  | zero =>
    intro i _
    rfl
  | succ n ih =>
    intro i h
    simp only [usedFrom]
    rw [h i (le_refl i) (by push_cast; omega), ih (i + 1)]
    intro k h1 h2
    exact h k (by omega) (by push_cast; omega)

theorem slotList_getElem_opt (s : Int → Slot) :
    ∀ (n : Nat) (j : Int) (i : Nat), i < n → (slotList s j n)[i]? = some (s (j + i)) := by
  intro n
  induction n with
  | zero =>
    intro j i h
    omega
  | succ n ih =>
    intro j i h
    cases i with
    | zero => simp [slotList]
    | succ i =>
      simp only [slotList, List.getElem?_cons_succ]
      rw [ih (j + 1) i (by omega)]
      congr 2
      push_cast
      omega

theorem filter_used_eq_map (slots : Int → Slot) :
    ∀ (n : Nat) (i : Int),
      (slotList slots i n).filter isUsed = (usedFrom slots i n).map slots := by
  intro n
  induction n with
  | zero =>
    intro i
    rfl
  | succ n ih =>
    intro i
    by_cases hu : isUsed (slots i) = true
    · simp only [slotList, usedFrom, hu, if_true, List.filter_cons_of_pos, List.map_cons,
        ih (i + 1)]
    · have hu2 : isUsed (slots i) = false := by simpa using hu
      simp only [slotList, usedFrom, hu2, Bool.false_eq_true, if_false]
      rw [List.filter_cons_of_neg hu, ih (i + 1)]

theorem used_add_free (slots : Int → Slot) :
    ∀ (n : Nat) (i : Int),
      ((usedFrom slots i n).length : Int) + countSlots isFree slots i n = n := by
  intro n
  induction n with
  | zero =>
    intro i
    simp [usedFrom, countSlots]
  | succ n ih =>
    intro i
    have := ih (i + 1)
    by_cases hz : (slots i).length = 0
    · have hu : isUsed (slots i) = false := by simp [isUsed, hz]
      have hf : isFree (slots i) = true := by simp [isFree, hz]
      simp only [usedFrom, countSlots, hu, hf, if_true, Bool.false_eq_true, if_false]
      push_cast
      omega
    · have hu : isUsed (slots i) = true := by simp [isUsed, hz]
      have hf : isFree (slots i) = false := by simp [isFree, hz]
      simp only [usedFrom, countSlots, hu, hf, if_true, Bool.false_eq_true, if_false,
        List.length_cons]
      push_cast
      omega

theorem countFree_nonneg (slots : Int → Slot) :
    ∀ (n : Nat) (i : Int), 0 ≤ countSlots isFree slots i n := by
  intro n
  induction n with
  | zero =>
    intro i
    simp [countSlots]
  | succ n ih =>
    intro i
    have := ih (i + 1)
    simp only [countSlots]
    split_ifs <;> omega

theorem compactLoop_spec (stop : Int) :
    ∀ (fuel : Nat) (slots : Int → Slot) (r w : Int), w ≤ r → r + fuel = stop →
      (compactLoop stop fuel slots r w).2.1 = stop ∧
      (compactLoop stop fuel slots r w).2.2 = w + ((usedFrom slots r fuel).length : Int) ∧
      slotList (compactLoop stop fuel slots r w).1 w (usedFrom slots r fuel).length =
        (usedFrom slots r fuel).map slots ∧
      (∀ j, j < w → (compactLoop stop fuel slots r w).1 j = slots j) ∧
      (∀ j, stop ≤ j → (compactLoop stop fuel slots r w).1 j = slots j) := by
  intro fuel
  induction fuel with
  | zero =>
    intro slots r w _ hr
    simp only [Nat.cast_zero, add_zero] at hr
    simp only [compactLoop, usedFrom, List.length_nil, slotList, List.map_nil, Nat.cast_zero,
      add_zero, implies_true, and_self, and_true]
    exact hr
  | succ fuel ih =>
    intro slots r w hwr hr
    push_cast at hr
    have hlt : r < stop := by omega
    by_cases hz : (slots r).length = 0
    · have hu : isUsed (slots r) = false := by simp [isUsed, hz]
      have hnz : ¬ ((slots r).length ≠ 0) := by simp [hz]
      simp only [compactLoop, hlt, if_true, hnz, if_false, usedFrom, hu, Bool.false_eq_true]
      exact ih slots (r + 1) w (by omega) (by omega)
    · have hu : isUsed (slots r) = true := by simp [isUsed, hz]
      have hnz : (slots r).length ≠ 0 := hz
      obtain ⟨h1, h2, h3, h4, h5⟩ :=
        ih (setSlot slots w (slots r)) (r + 1) (w + 1) (by omega) (by omega)
      have hsame : usedFrom (setSlot slots w (slots r)) (r + 1) fuel =
          usedFrom slots (r + 1) fuel := by
        apply usedFrom_congr
        intro k hk1 _
        have hne : k ≠ w := by omega
        simp only [setSlot, hne, if_false]
      have hmap : (usedFrom slots (r + 1) fuel).map (setSlot slots w (slots r)) =
          (usedFrom slots (r + 1) fuel).map slots := by
        apply List.map_congr_left
        intro k hk
        have hk1 := ((mem_usedFrom slots fuel (r + 1) k).mp hk).1
        have hne : k ≠ w := by omega
        simp only [setSlot, hne, if_false]
      rw [hsame] at h2 h3
      rw [hmap] at h3
      simp only [compactLoop, hlt, if_true, ne_eq, hz, not_false_eq_true, usedFrom, hu,
        List.length_cons, List.map_cons, slotList]
      refine ⟨h1, ?_, ?_, ?_, ?_⟩
      · rw [h2]
        push_cast
        omega
      · rw [h3, h4 w (by omega)]
        simp only [setSlot, if_true]
      · intro j hj
        rw [h4 j (by omega)]
        have hne : j ≠ w := by omega
        simp only [setSlot, hne, if_false]
      · intro j hj
        rw [h5 j hj]
        have hne : j ≠ w := by omega
        simp only [setSlot, hne, if_false]

theorem mem_slotList (slots : Int → Slot) :
    ∀ (n : Nat) (i : Int) (x : Slot), x ∈ slotList slots i n →
      ∃ k, i ≤ k ∧ k < i + n ∧ x = slots k := by
  intro n
  induction n with
  | zero =>
    intro i x h
    simp only [slotList, List.not_mem_nil] at h
  | succ n ih =>
    intro i x h
    simp only [slotList, List.mem_cons] at h
    rcases h with h | h
    · exact ⟨i, le_refl i, by push_cast; omega, h⟩
    · obtain ⟨k, h1, h2, h3⟩ := ih (i + 1) x h
      exact ⟨k, by omega, by push_cast; omega, h3⟩

theorem countSlots_eq_filter (pred : Slot → Bool) (slots : Int → Slot) :
    ∀ (n : Nat) (i : Int),
      countSlots pred slots i n = (((slotList slots i n).filter pred).length : Int) := by
  intro n
  induction n with
  | zero =>
    intro i
    rfl
  | succ n ih =>
    intro i
    by_cases hp : pred (slots i) = true
    · simp only [countSlots, slotList, hp, if_true, List.filter_cons_of_pos, List.length_cons,
        ih (i + 1)]
      push_cast
      omega
    · have hp2 : pred (slots i) = false := by simpa using hp
      simp only [countSlots, slotList, hp2, Bool.false_eq_true, if_false, ih (i + 1)]
      rw [List.filter_cons_of_neg hp]
      omega

/-- What `CompactSlotDir` does to a page whose slot count is a valid `short`:
`m` being the number of slots with a nonzero length, the first `m` entries
afterwards are those slots in their order, and the header is updated by the
number `numOfSlots - m` of tombstones. -/
theorem CompactSlotDir_spec (p : Page) (hn0 : 0 ≤ p.numOfSlots) (hn1 : p.numOfSlots ≤ 32767) :
    ((liveSlots p).length : Int) + numTombstones p = p.numOfSlots ∧
    0 ≤ numTombstones p ∧
    (CompactSlotDir p).numOfSlots = (liveSlots p).length ∧
    (CompactSlotDir p).freeSpace = wrap16 (p.freeSpace + numTombstones p * sizeofSlot) ∧
    (CompactSlotDir p).fillPtr = p.fillPtr ∧
    (CompactSlotDir p).data = p.data ∧
    (CompactSlotDir p).pid = p.pid ∧
    slotList (CompactSlotDir p).slots 0 (liveSlots p).length = (liveSlots p).map p.slots := by
  have hn : (p.numOfSlots.toNat : Int) = p.numOfSlots := Int.toNat_of_nonneg hn0
  have hsum := used_add_free p.slots p.numOfSlots.toNat 0
  have hnn := countFree_nonneg p.slots p.numOfSlots.toNat 0
  obtain ⟨h1, h2, h3, _, _⟩ :=
    compactLoop_spec p.numOfSlots p.numOfSlots.toNat p.slots 0 0 (le_refl 0) (by omega)
  rw [hn] at hsum
  have hsaved : wrap16 (p.numOfSlots - (0 + ((usedFrom p.slots 0 p.numOfSlots.toNat).length : Int)))
      = countSlots isFree p.slots 0 p.numOfSlots.toNat :=
    (wrap16_of_range (by omega) (by omega)).trans (by omega)
  have hnum : wrap16 (p.numOfSlots - countSlots isFree p.slots 0 p.numOfSlots.toNat) =
      ((usedFrom p.slots 0 p.numOfSlots.toNat).length : Int) :=
    (wrap16_of_range (by omega) (by omega)).trans (by omega)
  refine ⟨hsum, hnn, ?_, ?_, rfl, rfl, rfl, h3⟩
  · simp only [CompactSlotDir, h1, h2, hsaved, hnum, liveSlots]
  · simp only [CompactSlotDir, h1, h2, hsaved, numTombstones]

/-- With a negative slot count the loop of `CompactSlotDir` does not run. -/
theorem CompactSlotDir_neg (p : Page) (hn0 : -32768 ≤ p.numOfSlots) (hn : p.numOfSlots < 0) :
    directory p = [] ∧ directory (CompactSlotDir p) = [] ∧ numTombstones p = 0 ∧
    (CompactSlotDir p).numOfSlots = p.numOfSlots ∧
    (CompactSlotDir p).freeSpace = wrap16 (p.freeSpace + 0 * sizeofSlot) ∧
    (CompactSlotDir p).fillPtr = p.fillPtr := by
  have hz : p.numOfSlots.toNat = 0 := Int.toNat_eq_zero.mpr (by omega)
  have hw0 : wrap16 (0 - 0) = 0 := by decide
  have hw : wrap16 (p.numOfSlots - 0) = p.numOfSlots :=
    (wrap16_of_range (by omega) (by omega)).trans (by omega)
  have hnum : (CompactSlotDir p).numOfSlots = p.numOfSlots := by
    simp only [CompactSlotDir, hz, compactLoop, hw0, hw]
  refine ⟨?_, ?_, ?_, hnum, ?_, rfl⟩
  · simp only [directory, hz, slotList]
  · simp only [directory, hnum, hz, slotList]
  · simp only [numTombstones, hz, countSlots]
  · simp only [CompactSlotDir, hz, compactLoop, hw0]

/-- C12 as stated fails: on the page that `InsertRecord` with `length = 40000`
returned with `OK`, the only directory entry has the length -25536;
`CompactSlotDir` keeps it (`numOfSlots` stays 1), while the entries with
`length > 0` are none. -/
theorem compactSlotDir_keeps_negative_length_slot :
    (InsertRecord page0 zBuf 40000 ⟨0, 0⟩).1 = Status.OK ∧
    directory pageNeg = [⟨26560, -25536⟩] ∧
    (directory pageNeg).filter (fun s => decide (0 < s.length)) = [] ∧
    directory (CompactSlotDir pageNeg) = [⟨26560, -25536⟩] ∧
    (CompactSlotDir pageNeg).numOfSlots = 1 ∧
    directory (CompactSlotDir pageNeg) ≠
      (directory pageNeg).filter (fun s => decide (0 < s.length)) := by
  decide

/-- C12 amended (`CompactSlotDir` removes exactly the zero-length slots).  On
every page whose `numOfSlots` and `freeSpace` are 16-bit values, the directory
after `CompactSlotDir` is the list of the previous entries with `length ≠ 0`, in
their order and unchanged; it contains no tombstone; `numOfSlots` has decreased
by the number of tombstones; `freeSpace` is the old value plus that number
times `sizeof(Slot)`, reduced to 16 bits, which is the exact sum whenever the
sum fits; and `fillPtr` is unchanged.  On a page whose directory slots have
lengths `≥ 0` the entries kept are exactly those with `length > 0`. -/
theorem compactSlotDir_removes_zero_length_slots (p : Page)
    (hn0 : -32768 ≤ p.numOfSlots) (hn1 : p.numOfSlots ≤ 32767)
    (hf0 : -32768 ≤ p.freeSpace) :
    directory (CompactSlotDir p) = (directory p).filter (fun s => decide (s.length ≠ 0)) ∧
    (∀ s ∈ directory (CompactSlotDir p), s.length ≠ 0) ∧
    numTombstones p = ((directory p).filter (fun s => decide (s.length = 0))).length ∧
    (CompactSlotDir p).numOfSlots = p.numOfSlots - numTombstones p ∧
    (CompactSlotDir p).freeSpace = wrap16 (p.freeSpace + numTombstones p * sizeofSlot) ∧
    (p.freeSpace + numTombstones p * sizeofSlot ≤ 32767 →
      (CompactSlotDir p).freeSpace = p.freeSpace + numTombstones p * sizeofSlot) ∧
    (CompactSlotDir p).fillPtr = p.fillPtr ∧
    ((∀ i, 0 ≤ i → i < p.numOfSlots → 0 ≤ (p.slots i).length) →
      directory (CompactSlotDir p) =
        (directory p).filter (fun s => decide (0 < s.length))) := by
  have hfreeEq : isFree = fun s => decide (s.length = 0) := rfl
  have husedEq : isUsed = fun s => decide (s.length ≠ 0) := rfl
  have hcount : numTombstones p =
      ((directory p).filter (fun s => decide (s.length = 0))).length := by
    rw [← hfreeEq]
    exact countSlots_eq_filter isFree p.slots p.numOfSlots.toNat 0
  have hnn : 0 ≤ numTombstones p := countFree_nonneg p.slots p.numOfSlots.toNat 0
  have main : directory (CompactSlotDir p) =
        (directory p).filter (fun s => decide (s.length ≠ 0)) ∧
      (CompactSlotDir p).numOfSlots = p.numOfSlots - numTombstones p ∧
      (CompactSlotDir p).freeSpace = wrap16 (p.freeSpace + numTombstones p * sizeofSlot) ∧
      (CompactSlotDir p).fillPtr = p.fillPtr := by
    by_cases hneg : p.numOfSlots < 0
    · obtain ⟨h1, h2, h3, h4, h5, h6⟩ := CompactSlotDir_neg p hn0 hneg
      refine ⟨?_, ?_, ?_, h6⟩
      · rw [h1, h2]
        rfl
      · rw [h4, h3]
        omega
      · rw [h5, h3]
    · have hpos : 0 ≤ p.numOfSlots := by omega
      obtain ⟨hsum, _, hnum, hfree, hfill, _, _, hlist⟩ := CompactSlotDir_spec p hpos hn1
      refine ⟨?_, by omega, hfree, hfill⟩
      rw [directory, hnum, Int.toNat_natCast, hlist]
      simp only [directory, liveSlots]
      rw [← filter_used_eq_map, husedEq]
  obtain ⟨hdir, hnum, hfree, hfill⟩ := main
  refine ⟨hdir, ?_, hcount, hnum, hfree, ?_, hfill, ?_⟩
  · intro s hs
    rw [hdir] at hs
    have := (List.mem_filter.mp hs).2
    simpa using this
  · intro hfit
    rw [hfree]
    simp only [sizeofSlot] at hfit ⊢
    exact wrap16_of_range (by omega) hfit
  · intro hlen
    rw [hdir]
    apply List.filter_congr
    intro x hx
    obtain ⟨k, hk0, hk1, hk2⟩ := mem_slotList _ _ _ _ hx
    have hpos : 0 ≤ p.numOfSlots := by
      by_contra hneg
      have hz : p.numOfSlots.toNat = 0 := Int.toNat_eq_zero.mpr (by omega)
      rw [hz] at hk1
      simp only [Nat.cast_zero] at hk1
      omega
    have hn : (p.numOfSlots.toNat : Int) = p.numOfSlots := Int.toNat_of_nonneg hpos
    have := hlen k hk0 (by omega)
    rw [hk2]
    by_cases hz : (p.slots k).length = 0
    · simp [hz]
    · have hgt : 0 < (p.slots k).length := by omega
      simp [hz, hgt]

/-- Witness of C12 amended: the sample page with records in slots 0 and 2 and a
tombstone in slot 1 keeps two slots, the former slots 0 and 2. -/
theorem compactSlotDir_removes_zero_length_slots_witness :
    page3d.numOfSlots = 3 ∧ page3d.freeSpace = 1002 ∧ numTombstones page3d = 1 ∧
    directory page3d = [⟨1019, 5⟩, ⟨1015, 0⟩, ⟨1014, 5⟩] ∧
    directory (CompactSlotDir page3d) = [⟨1019, 5⟩, ⟨1014, 5⟩] ∧
    (CompactSlotDir page3d).numOfSlots = page3d.numOfSlots - numTombstones page3d ∧
    (CompactSlotDir page3d).freeSpace = page3d.freeSpace + numTombstones page3d * sizeofSlot ∧
    (CompactSlotDir page3d).fillPtr = page3d.fillPtr :=
  have h := compactSlotDir_removes_zero_length_slots page3d (by decide) (by decide) (by decide)
  ⟨by decide, by decide, by decide, by decide, by decide, h.2.2.2.1,
    h.2.2.2.2.2.1 (by decide), h.2.2.2.2.2.2.1⟩

/-- C13 (compaction renumbers without losing records).  On a page that
satisfies the invariants, `liveSlots` lists the live slot indices in strictly
increasing order and its length is `GetNumOfRecords()`; after `CompactSlotDir`
`numOfSlots` is that number, and for the `i`-th live slot index `k`,
`GetRecord` on slot `i` of the compacted page returns `OK` with the length and
bytes that `GetRecord` on slot `k` returned before the compaction. -/
theorem compaction_renumbers (C : Int) (p : Page) (out : Mem) (len0 : Int)
    (hinv : PageInv C p) :
    (liveSlots p).Pairwise (· < ·) ∧
    (∀ k, k ∈ liveSlots p ↔ Live p k) ∧
    ((liveSlots p).length : Int) = GetNumOfRecords p ∧
    (CompactSlotDir p).numOfSlots = GetNumOfRecords p ∧
    ∀ (i : Nat) (k pg1 pg2 : Int), (liveSlots p)[i]? = some k →
      (GetRecord p ⟨pg1, k⟩ out len0).1 = Status.OK ∧
      GetRecord (CompactSlotDir p) ⟨pg2, i⟩ out len0 = GetRecord p ⟨pg1, k⟩ out len0 := by
  have hn0 := hinv.numNonneg
  have hn1 : p.numOfSlots ≤ 32767 := by
    have := hinv.freeSpace_le.2
    have := hinv.fillHi
    have := hinv.cap
    omega
  have hn : (p.numOfSlots.toNat : Int) = p.numOfSlots := Int.toNat_of_nonneg hn0
  obtain ⟨hsum, _, hnum, _, _, hdata, _, hlist⟩ := CompactSlotDir_spec p hn0 hn1
  have hmem : ∀ k, k ∈ liveSlots p ↔ Live p k := by
    intro k
    simp only [liveSlots, mem_usedFrom]
    constructor
    · rintro ⟨h0, h1, h2⟩
      have := hinv.lenNonneg k h0 (by omega)
      exact ⟨h0, by omega, by omega⟩
    · rintro ⟨h0, h1, h2⟩
      exact ⟨h0, by omega, by omega⟩
  have hcount : ((liveSlots p).length : Int) = GetNumOfRecords p := by
    simp only [GetNumOfRecords]
    simp only [numTombstones] at hsum
    omega
  refine ⟨usedFrom_pairwise _ _ _, hmem, hcount, by rw [hnum, hcount], ?_⟩
  intro i k pg1 pg2 hik
  obtain ⟨hilt, _⟩ := List.getElem?_eq_some.mp hik
  obtain ⟨hk0, hk1, hk2⟩ := (hmem k).mp (List.getElem?_mem hik)
  have hslot : (CompactSlotDir p).slots (i : Int) = p.slots k := by
    have h1 := slotList_getElem_opt (CompactSlotDir p).slots (liveSlots p).length 0 i hilt
    rw [hlist, List.getElem?_map, hik] at h1
    simp only [Option.map_some', zero_add, Option.some.injEq] at h1
    exact h1.symm
  have hc1 : ¬ (k ≥ p.numOfSlots ∨ (p.slots k).length = 0) := by omega
  have hc2 : ¬ ((i : Int) ≥ ((liveSlots p).length : Int) ∨ (p.slots k).length = 0) := by omega
  constructor
  · simp only [GetRecord, hc1, if_false]
  · simp only [GetRecord, hnum, hslot, hdata, hc1, hc2, if_false]

/-- Witness of C13: three records in slots 0, 1, 2, slot 0 deleted, then
`CompactSlotDir`: two slots remain, "beta" (formerly slot 1) is read at slot 0
and "gamma" (formerly slot 2) at slot 1. -/
theorem compaction_renumbers_witness :
    PageInv 1024 pageT ∧ liveSlots pageT = [1, 2] ∧
    (CompactSlotDir pageT).numOfSlots = 2 ∧
    GetRecord (CompactSlotDir pageT) ⟨7, 0⟩ (bufOf []) 0 = GetRecord pageT ⟨7, 1⟩ (bufOf []) 0 ∧
    GetRecord (CompactSlotDir pageT) ⟨7, 1⟩ (bufOf []) 0 = GetRecord pageT ⟨7, 2⟩ (bufOf []) 0 ∧
    readBytes (GetRecord (CompactSlotDir pageT) ⟨7, 0⟩ (bufOf []) 0).2.1 0 4
      = [98, 101, 116, 97] ∧
    readBytes (GetRecord (CompactSlotDir pageT) ⟨7, 1⟩ (bufOf []) 0).2.1 0 5
      = [103, 97, 109, 109, 97] :=
  have h := compaction_renumbers 1024 pageT (bufOf []) 0 pageT_inv
  ⟨pageT_inv, by decide, by decide,
    (h.2.2.2.2 0 1 7 7 (by decide)).2, (h.2.2.2.2 1 2 7 7 (by decide)).2,
    by decide, by decide⟩

/-! ## Tiling of the data region -/

theorem Init_tiling {C : Int} (h0 : 0 ≤ C) (h1 : C ≤ 32767) (p : Page) (pageNo : Int) :
    Tiling C (Init C p pageNo) := by
  have hw : wrap16 C = C := wrap16_of_range (by omega) h1
  refine ⟨?_, ?_, ?_⟩ <;> simp only [Init, hw, Live]
  · rintro i ⟨a, b, _⟩
    omega
  · rintro i j ⟨a, b, _⟩
    omega
  · intro a ha hb
    omega

theorem page1_tiling : Tiling 1024 page1 := by
  have hn : page1.numOfSlots = 1 := by decide
  have hf : page1.fillPtr = 1019 := by decide
  have ho : (page1.slots 0).offset = 1019 := by decide
  have hl : (page1.slots 0).length = 5 := by decide
  have hone : ∀ i, Live page1 i → i = 0 := by
    rintro i ⟨a, b, _⟩
    omega
  refine ⟨?_, ?_, ?_⟩
  · intro i hi
    rw [hone i hi]
    omega
  · intro i j hi hj hij
    exact absurd ((hone i hi).trans (hone j hj).symm) hij
  · intro a ha hb
    exact ⟨0, ⟨le_refl 0, by omega, by omega⟩, by omega, by omega⟩

theorem pageC_tiling : Tiling 1024 pageC := by
  have hn : pageC.numOfSlots = 1 := by decide
  have hf : pageC.fillPtr = 1020 := by decide
  have ho : (pageC.slots 0).offset = 1020 := by decide
  have hl : (pageC.slots 0).length = 4 := by decide
  have hone : ∀ i, Live pageC i → i = 0 := by
    rintro i ⟨a, b, _⟩
    omega
  refine ⟨?_, ?_, ?_⟩
  · intro i hi
    rw [hone i hi]
    omega
  · intro i j hi hj hij
    exact absurd ((hone i hi).trans (hone j hj).symm) hij
  · intro a ha hb
    exact ⟨0, ⟨le_refl 0, by omega, by omega⟩, by omega, by omega⟩

/-- C18 (live records tile the data region).  The tiling predicate holds after
`Init`, but two successful operations break it on pages where it holds:
on the page holding "alpha", `InsertRecord` with `length = 40000` returns `OK`
and moves `fillPtr` to 26555, above the record of slot 0; on the compacted
sample page (`numOfSlots = 1`), `DeleteRecord` on slot index 1 returns `OK` and
moves `fillPtr` to 1024, above the record of slot 0 at offset 1020. -/
theorem tiling_broken_by_overlong_insert_and_stale_delete :
    Tiling 1024 (Init 1024 blank 7) ∧
    PageInv 1024 page1 ∧ Tiling 1024 page1 ∧
    (InsertRecord page1 zBuf 40000 ⟨0, 0⟩).1 = Status.OK ∧
    (InsertRecord page1 zBuf 40000 ⟨0, 0⟩).2.1.fillPtr = 26555 ∧
    ¬ Tiling 1024 (InsertRecord page1 zBuf 40000 ⟨0, 0⟩).2.1 ∧
    Tiling 1024 pageC ∧
    (DeleteRecord pageC ⟨7, 1⟩).1 = Status.OK ∧
    (DeleteRecord pageC ⟨7, 1⟩).2.fillPtr = 1024 ∧
    ¬ Tiling 1024 (DeleteRecord pageC ⟨7, 1⟩).2 := by
  refine ⟨Init_tiling (by decide) (by decide) blank 7, page1_inv, page1_tiling, by decide,
    by decide, ?_, pageC_tiling, by decide, by decide, ?_⟩
  · intro h
    have h0 := (h.1 0 (by unfold Live; decide)).1
    revert h0
    decide
  · intro h
    have h0 := (h.1 0 (by unfold Live; decide)).1
    revert h0
    decide

/-! ## CompactSlotDir, fitting inserts and deletes of live records keep the invariants -/

theorem CompactSlotDir_slot (p : Page) (hn0 : 0 ≤ p.numOfSlots) (hn1 : p.numOfSlots ≤ 32767)
    (i : Nat) (k : Int) (h : (liveSlots p)[i]? = some k) :
    (i : Int) < (CompactSlotDir p).numOfSlots ∧ (CompactSlotDir p).slots (i : Int) = p.slots k := by
  obtain ⟨_, _, hnum, _, _, _, _, hlist⟩ := CompactSlotDir_spec p hn0 hn1
  obtain ⟨hilt, _⟩ := List.getElem?_eq_some.mp h
  have h1 := slotList_getElem_opt (CompactSlotDir p).slots (liveSlots p).length 0 i hilt
  rw [hlist, List.getElem?_map, h] at h1
  simp only [Option.map_some', zero_add, Option.some.injEq] at h1
  refine ⟨?_, h1.symm⟩
  rw [hnum]
  exact_mod_cast hilt

theorem liveSlots_index_inj (p : Page) (a b : Nat) (k : Int)
    (ha : (liveSlots p)[a]? = some k) (hb : (liveSlots p)[b]? = some k) : a = b := by
  obtain ⟨hal, hae⟩ := List.getElem?_eq_some.mp ha
  obtain ⟨hbl, hbe⟩ := List.getElem?_eq_some.mp hb
  have hnd : (liveSlots p).Nodup := (usedFrom_pairwise p.slots p.numOfSlots.toNat 0).nodup
  exact (hnd.getElem_inj_iff).mp (hae.trans hbe.symm)

theorem mem_liveSlots {C : Int} {p : Page} (hinv : PageInv C p) (k : Int) :
    k ∈ liveSlots p ↔ Live p k := by
  have hn : (p.numOfSlots.toNat : Int) = p.numOfSlots := Int.toNat_of_nonneg hinv.numNonneg
  simp only [liveSlots, mem_usedFrom]
  constructor
  · rintro ⟨h0, h1, h2⟩
    have := hinv.lenNonneg k h0 (by omega)
    exact ⟨h0, by omega, by omega⟩
  · rintro ⟨h0, h1, h2⟩
    exact ⟨h0, by omega, by omega⟩

theorem PageInv.numOfSlots_le {C : Int} {p : Page} (hinv : PageInv C p) :
    p.numOfSlots ≤ 32767 := by
  have := hinv.freeSpace_le.2
  have := hinv.fillHi
  have := hinv.cap
  have := hinv.numNonneg
  omega

/-- Every live slot of the compacted page is a live slot of the page before,
at the position it has in `liveSlots`. -/
theorem CompactSlotDir_live {C : Int} {p : Page} (hinv : PageInv C p) (i : Int)
    (h0 : 0 ≤ i) (h1 : i < (CompactSlotDir p).numOfSlots) :
    ∃ k, (liveSlots p)[i.toNat]? = some k ∧ Live p k ∧
      (CompactSlotDir p).slots i = p.slots k := by
  obtain ⟨_, _, hnum, _⟩ := CompactSlotDir_spec p hinv.numNonneg hinv.numOfSlots_le
  have hi : (i.toNat : Int) = i := Int.toNat_of_nonneg h0
  have hlt : i.toNat < (liveSlots p).length := by
    rw [hnum] at h1
    omega
  have hget : (liveSlots p)[i.toNat]? = some ((liveSlots p)[i.toNat]) :=
    List.getElem?_eq_getElem hlt
  have hsl := (CompactSlotDir_slot p hinv.numNonneg hinv.numOfSlots_le i.toNat _ hget).2
  rw [hi] at hsl
  exact ⟨_, hget, (mem_liveSlots hinv _).mp (List.getElem_mem hlt), hsl⟩

theorem CompactSlotDir_inv {C : Int} {p : Page} (hinv : PageInv C p) :
    PageInv C (CompactSlotDir p) := by
  obtain ⟨hsum, hnn, hnum, hfree, hfill, _, _, _⟩ :=
    CompactSlotDir_spec p hinv.numNonneg hinv.numOfSlots_le
  have hacc := hinv.account
  have hfn := hinv.freeNonneg
  have hfh := hinv.fillHi
  have hc := hinv.cap
  have hfl := hinv.fillLo
  simp only [sizeofSlot] at hacc hfree
  have hw : wrap16 (p.freeSpace + numTombstones p * 4) = p.freeSpace + numTombstones p * 4 :=
    wrap16_of_range (by omega) (by omega)
  rw [hw] at hfree
  have hlive : ∀ i, Live (CompactSlotDir p) i → ∃ k, (liveSlots p)[i.toNat]? = some k ∧
      Live p k ∧ (CompactSlotDir p).slots i = p.slots k :=
    fun i hl => CompactSlotDir_live hinv i hl.1 hl.2.1
  refine ⟨hc, by omega, by omega, by omega, by omega, ?_, ?_, ?_, ?_⟩
  · simp only [sizeofSlot]
    omega
  · intro i h0 h1
    obtain ⟨k, _, hk, heq⟩ := CompactSlotDir_live hinv i h0 h1
    rw [heq]
    have := hk.2.2
    omega
  · intro i hl
    obtain ⟨k, _, hk, heq⟩ := hlive i hl
    rw [heq, hfill]
    exact hinv.inData k hk
  · intro i j hi hj hij
    obtain ⟨k, hgk, hk, heq⟩ := hlive i hi
    obtain ⟨l, hgl, hl, heq2⟩ := hlive j hj
    rw [heq, heq2]
    apply hinv.disjoint k l hk hl
    intro hkl
    rw [hkl] at hgk
    have := liveSlots_index_inj p _ _ _ hgk hgl
    have h1 : (i.toNat : Int) = i := Int.toNat_of_nonneg hi.1
    have h2 : (j.toNat : Int) = j := Int.toNat_of_nonneg hj.1
    omega

theorem CompactSlotDir_tiling {C : Int} {p : Page} (hinv : PageInv C p) (ht : Tiling C p) :
    Tiling C (CompactSlotDir p) := by
  have hinv2 := CompactSlotDir_inv hinv
  obtain ⟨_, _, _, _, hfill, _, _, _⟩ :=
    CompactSlotDir_spec p hinv.numNonneg hinv.numOfSlots_le
  refine ⟨hinv2.inData, hinv2.disjoint, ?_⟩
  intro a ha hb
  rw [hfill] at ha
  obtain ⟨k, hk, hk1, hk2⟩ := ht.2.2 a ha hb
  obtain ⟨n, hn, hnk⟩ := List.mem_iff_getElem.mp ((mem_liveSlots hinv k).mpr hk)
  have hget : (liveSlots p)[n]? = some k := by
    rw [List.getElem?_eq_getElem hn, hnk]
  obtain ⟨hlt, heq⟩ := CompactSlotDir_slot p hinv.numNonneg hinv.numOfSlots_le n k hget
  refine ⟨(n : Int), ⟨by omega, hlt, ?_⟩, ?_, ?_⟩
  · rw [heq]
    exact hk.2.2
  · rw [heq]
    exact hk1
  · rw [heq]
    exact hk2

theorem InsertRecord_tiling {C : Int} {p : Page} (hinv : PageInv C p) (ht : Tiling C p)
    (recPtr : Mem) (length : Int) (rid : RecordID) (h1 : 1 ≤ length)
    (h2 : length ≤ AvailableSpace p) :
    Tiling C (InsertRecord p recPtr length rid).2.1 := by
  have hinv2 := InsertRecord_inv hinv recPtr length rid h1 h2
  have hs := InsertRecord_fits hinv recPtr length rid h1 h2
  have hch := hs.chosen hinv
  have hnew := hs.slot_new
  have hfp := hs.fillPtr
  have hsl := hs.slots
  generalize InsertRecord p recPtr length rid = r at hinv2 hs hch hnew hfp hsl ⊢
  obtain ⟨h0k, hkn, hnl, hnn, _⟩ := hch
  refine ⟨hinv2.inData, hinv2.disjoint, ?_⟩
  intro a ha hb
  by_cases hlo : a < p.fillPtr
  · refine ⟨r.2.2.slotNo, ⟨h0k, hkn, ?_⟩, ?_, ?_⟩ <;> rw [hnew] <;> simp only <;> omega
  · obtain ⟨k, hk, hk1, hk2⟩ := ht.2.2 a (by omega) hb
    have hne : k ≠ r.2.2.slotNo := by
      intro h
      rw [h] at hk
      exact hnl hk
    have heq : r.2.1.slots k = p.slots k := by
      rw [hsl]
      simp only [setSlot, hne, if_false]
    refine ⟨k, ⟨hk.1, by have := hk.2.1; omega, ?_⟩, ?_, ?_⟩ <;> rw [heq]
    · exact hk.2.2
    · exact hk1
    · exact hk2

theorem DeleteRecord_tiling {C : Int} {p : Page} (hinv : PageInv C p) (ht : Tiling C p)
    (rid : RecordID) (hr : Live p rid.slotNo) : Tiling C (DeleteRecord p rid).2 := by
  have hinv2 := DeleteRecord_inv hinv rid hr
  have hd := DeleteRecord_live hinv rid hr
  generalize DeleteRecord p rid = d at hinv2 hd ⊢
  have hinr := hinv.inData rid.slotNo hr
  have hrl := hr.2.2
  refine ⟨hinv2.inData, hinv2.disjoint, ?_⟩
  intro a ha hb
  rw [hd.fillPtr] at ha
  by_cases hhi : a < (p.slots rid.slotNo).offset + (p.slots rid.slotNo).length
  · obtain ⟨k, hk, hk1, hk2⟩ := ht.2.2 (a - (p.slots rid.slotNo).length) (by omega) (by omega)
    have hne : k ≠ rid.slotNo := by
      intro h
      rw [h] at hk1
      omega
    have hoff := hd.slotOff k hk hne
    have hlt : (p.slots k).offset < (p.slots rid.slotNo).offset := by omega
    simp only [hlt, if_true] at hoff
    refine ⟨k, (hd.live_iff k).mpr ⟨hk, hne⟩, ?_, ?_⟩
    · rw [hoff]
      omega
    · rw [hoff, hd.slotLen k hne]
      omega
  · obtain ⟨k, hk, hk1, hk2⟩ := ht.2.2 a (by omega) hb
    have hne : k ≠ rid.slotNo := by
      intro h
      rw [h] at hk2
      omega
    have hoff := hd.slotOff k hk hne
    have hdis := hinv.disjoint k rid.slotNo hk hr hne
    have hnlt : ¬ ((p.slots k).offset < (p.slots rid.slotNo).offset) := by omega
    simp only [hnlt, if_false] at hoff
    refine ⟨k, (hd.live_iff k).mpr ⟨hk, hne⟩, ?_, ?_⟩
    · rw [hoff]
      exact hk1
    · rw [hoff, hd.slotLen k hne]
      exact hk2

theorem PageInv.accounting {C : Int} {p : Page} (hinv : PageInv C p) : Accounting C p :=
  ⟨hinv.fillLo, hinv.fillHi, hinv.freeNonneg, hinv.account⟩

/-- The validation of `NextRecord` rejects a negative slot index, a slot index
above `numOfSlots` and a slot with length 0. -/
theorem NextRecord_fail (p : Page) (cur next : RecordID)
    (h : cur.slotNo < 0 ∨ p.numOfSlots < cur.slotNo ∨ (p.slots cur.slotNo).length = 0) :
    NextRecord p cur next = (Status.FAIL, next) := by
  have hcond : RecordID.gtInt cur p.numOfSlots = true ∨ RecordID.ltInt cur 0 = true ∨
      (p.slots cur.slotNo).length = 0 := by
    simp only [RecordID.gtInt, RecordID.ltInt, decide_eq_true_eq]
    omega
  simp only [NextRecord, hcond, if_true]

/-- A page that satisfies the invariants meets the side conditions under which
`CompactSlotDir` is characterised. -/
theorem PageInv.compact_ready {C : Int} {p : Page} (hinv : PageInv C p) :
    0 ≤ p.numOfSlots ∧ p.numOfSlots ≤ 32767 ∧
    (∀ i, 0 ≤ i → i < p.numOfSlots → 0 ≤ (p.slots i).length) ∧
    -32768 ≤ p.freeSpace ∧ p.freeSpace + numTombstones p * sizeofSlot ≤ 32767 := by
  obtain ⟨hsum, hnn, _⟩ := CompactSlotDir_spec p hinv.numNonneg hinv.numOfSlots_le
  have hacc := hinv.account
  have hfn := hinv.freeNonneg
  have hfh := hinv.fillHi
  have hc := hinv.cap
  simp only [sizeofSlot] at hacc ⊢
  exact ⟨hinv.numNonneg, hinv.numOfSlots_le, hinv.lenNonneg, by omega, by omega⟩

end HeapPage
